import Mathlib

set_option maxRecDepth 4000

/-!
Shallow embedding of the go-lsm key-value store (github.com/xmh1011/go-lsm).

Keys and values are byte strings: Go `string` / `[]byte` become `List Nat`
(each entry a byte value).  Go string comparison `<` is bytewise
lexicographic, embedded as `keyLt`.

The repository keeps two tombstone representations side by side (the spec's
§9 notes this):
* the sentinel representation (`kv/kv.go`): a record is a `(key, value)`
  pair and a value equal to the fixed byte string "～DELETED～" marks
  deletion (`KeyValuePair.IsDeleted`);
* the flag representation (the `kv` revision embedded in
  `sstable/compaction.go`): a record is `(key, value, deleted)` with an
  explicit boolean.

The read path (database / memtable manager / sstable manager search) is
embedded over the sentinel representation, the compaction block merge
(`sstable/block/footer.go` `CompactAndMergeBlocks`) over the flag
representation, exactly as the corresponding source files are written.
-/

/-- Erased byte strings: Go `string` and `[]byte`. -/
abbrev Bytes : Type := List Nat

/-- Bytewise lexicographic comparison, Go's `<` on `string`
(`kv.Key` is `type Key string`). -/
def keyLt : Bytes → Bytes → Bool
  | [], [] => false
  | [], _ :: _ => true
  | _ :: _, [] => false
  | a :: as, b :: bs =>
    if a < b then true
    else if b < a then false
    else keyLt as bs

/-- The UTF-8 bytes of the tombstone sentinel string `"～DELETED～"`
(`kv/kv.go`, `deletedValueStr`; `～` is U+FF5E, UTF-8 `EF BD 9E`). -/
def deletedValue : Bytes :=
  [0xEF, 0xBD, 0x9E, 0x44, 0x45, 0x4C, 0x45, 0x54, 0x45, 0x44, 0xEF, 0xBD, 0x9E]

/-- Sentinel-representation record: `kv.KeyValuePair` of `kv/kv.go`
(fields `Key`, `Value`). -/
structure KeyValuePair where
  key : Bytes
  value : Bytes
  deriving Repr, DecidableEq

instance : Inhabited KeyValuePair := ⟨⟨[], []⟩⟩

/-- The tombstone test `KeyValuePair.IsDeleted` of `kv/kv.go`: the stored
value bytes equal the sentinel.  (The Go code also requires `Value != nil`;
the sentinel is nonempty, so a nil value is never deleted — byte-string
values are modelled as lists, where nil and empty coincide and both differ
from the sentinel.) -/
def KeyValuePair.isDel (p : KeyValuePair) : Bool :=
  p.value = deletedValue

/-- Size estimate `KeyValuePair.EstimateSize` of `kv/kv.go`:
4-byte key length + key + 4-byte value length + value + 8 bytes reserved
for the value offset. -/
def KeyValuePair.estimateSize (p : KeyValuePair) : Nat :=
  4 + p.key.length + 4 + p.value.length + 8

/-! ### The ordered in-memory map (skip list contract)

`memtable/skiplist` implements a probabilistically levelled skip list
(the source of `SkipList.Search/Add/Delete` is the `skiplist` document
embedded in `sstable/block/header_test.go`).  Its observable contract is an
ordered map keyed by `kv.Key`; the probabilistic tower only affects
performance, not results, so entries are embedded as a key-sorted
association list and the three operations are translated literally against
that representation. -/

/-- `SkipList.Search`: locate the unique node with the given key.  A node
whose pair `IsDeleted()` yields `(nil, true)`; a present live node yields
`(value, true)`; an absent key yields `(nil, false)`. -/
def skipSearch : List KeyValuePair → Bytes → Option Bytes × Bool
  | [], _ => (none, false)
  | p :: ps, k =>
    if p.key = k then
      if p.isDel then (none, true) else (some p.value, true)
    else skipSearch ps k

/-- `SkipList.Add`: insert a pair, replacing the pair of an existing node
with the same key (which also clears a previous tombstone). -/
def skipAdd : List KeyValuePair → KeyValuePair → List KeyValuePair
  | [], p => [p]
  | q :: qs, p =>
    if keyLt q.key p.key then q :: skipAdd qs p
    else if q.key = p.key then p :: qs
    else p :: q :: qs

/-- `SkipList.Delete`: logically delete by overwriting the stored value
with the sentinel; a missing key changes nothing (the Go code returns
`false` there). -/
def skipDelete : List KeyValuePair → Bytes → List KeyValuePair
  | [], _ => []
  | q :: qs, k =>
    if q.key = k then { q with value := deletedValue } :: qs
    else q :: skipDelete qs k

/-! ### Memtable and the memtable manager (`memtable/memtable.go`,
`memtable/manager.go`) -/

/-- Promote threshold `maxMemoryTableSize` (2 MiB). -/
def maxMemoryTableSize : Nat := 2 * 1024 * 1024

/-- In-memory table state relevant to size accounting: its entries and the
running byte estimate `sizeInBytes` (`Memtable` of `memtable/memtable.go`;
the WAL handle is modelled separately). -/
structure Memtable where
  entries : List KeyValuePair
  sizeInBytes : Nat
  deriving Repr, DecidableEq

/-- `Memtable.CanInsert`: the estimate after inserting stays within the
2 MiB bound. -/
def Memtable.canInsert (t : Memtable) (p : KeyValuePair) : Bool :=
  t.sizeInBytes + p.estimateSize ≤ maxMemoryTableSize

/-- `Memtable.Insert`: append to the WAL (modelled elsewhere), add the
estimate to `sizeInBytes` and add the pair to the skip list. -/
def Memtable.insert (t : Memtable) (p : KeyValuePair) : Memtable :=
  { entries := skipAdd t.entries p
    sizeInBytes := t.sizeInBytes + p.estimateSize }

/-- Effect of `memtable.Manager.Delete` on the active memtable's entries:
`Mem.Delete(key)` (logical delete when present) followed by inserting the
pair `(key, DeletedValue)` — the net effect stores the sentinel under the
key whether or not it was present (`memtable/manager.go` lines 71–100;
promotion is not triggered in the states considered here). -/
def mgrDeleteEntries (entries : List KeyValuePair) (k : Bytes) : List KeyValuePair :=
  skipAdd (skipDelete entries k) ⟨k, deletedValue⟩

/-- `memtable.Manager.Search` (`memtable/manager.go` lines 56–69): consult
the active memtable; on a hit (`ok = true`, including a tombstone hit,
which carries `nil`) return immediately; otherwise scan the frozen tables
from newest to oldest; otherwise `nil`.  `imems` is in Go slice order
(oldest first), so the scan walks its reverse. -/
def searchIMems : List (List KeyValuePair) → Bytes → Option Bytes
  | [], _ => none
  | t :: ts, k =>
    match skipSearch t k with
    | (v, true) => v
    | (_, false) => searchIMems ts k

/-- Memtable-manager search over active entries plus the frozen queue. -/
def memManagerSearch (mem : List KeyValuePair) (imems : List (List KeyValuePair))
    (k : Bytes) : Option Bytes :=
  match skipSearch mem k with
  | (v, true) => v
  | (_, false) => searchIMems imems.reverse k

/-! ### SSTable metadata and the level manager's read path
(`sstable/sstable.go`, `sstable/manager.go`)

An SSTable's searchable content is its header key range, its bloom filter
and its key-ordered records (index keys zipped with data-section values).
The bloom filter is out of scope for the spec ("approximate membership"
contract only); it is modelled by the set of keys that were added, which
realises the contract exactly (no false negatives; false positives only
cause extra probes that the theorems below never rely on). -/

/-- In-memory SSTable metadata used by the level manager's search:
id, file path, header min/max key, filter, ordered records. -/
structure SSTMeta where
  id : Nat
  path : Bytes
  minKey : Bytes
  maxKey : Bytes
  filterKeys : List Bytes
  records : List KeyValuePair
  deriving Repr, DecidableEq

/-- `SSTable.MayContain` (`sstable/sstable.go` lines 300–305): reject keys
outside `[Header.MinKey, Header.MaxKey]`, then ask the bloom filter. -/
def SSTMeta.mayContain (t : SSTMeta) (k : Bytes) : Bool :=
  if keyLt k t.minKey || keyLt t.maxKey k then false
  else t.filterKeys.contains k

/-- Binary search for the first record with key ≥ target — the `Seek`
loop of `DataIterator.Seek` (`left, right := 0, len; mid := (l+r)/2; ...`),
which the SSTable iterator runs over the table's ordered records.  The
loop is written with explicit fuel equal to the window width, which the
Go loop strictly shrinks each pass, so the two agree. -/
def lowerBoundGoF : Nat → List KeyValuePair → Bytes → Nat → Nat → Nat
  | 0, _, _, left, _ => left
  | fuel + 1, recs, target, left, right =>
    if left < right then
      let mid := (left + right) / 2
      if keyLt (recs.getD mid default).key target then
        lowerBoundGoF fuel recs target (mid + 1) right
      else
        lowerBoundGoF fuel recs target left mid
    else left

/-- Entry point of the seek loop on a full record list window. -/
def lowerBoundGo (recs : List KeyValuePair) (target : Bytes)
    (left right : Nat) : Nat :=
  lowerBoundGoF (right - left) recs target left right

/-- `Manager.SearchFromTable` (`sstable/manager.go` lines 139–151):
skip the table unless `MayContain`; seek the cursor to the key; if the
cursor lands on an exact match return its raw stored value (no tombstone
inspection happens here), else `nil`. -/
def searchFromTable (t : SSTMeta) (k : Bytes) : Option Bytes :=
  if t.mayContain k then
    let i := lowerBoundGo t.records k 0 t.records.length
    match t.records.get? i with
    | some p => if p.key = k then some p.value else none
    | none => none
  else none

/-- Digit parser behind `util.ExtractID` (`fmt.Sscanf(fileName, "%d", &id)`):
skip leading whitespace, then read a run of decimal digits; when no digit
is found `Sscanf` errors and the id stays `0` (`util.ExtractID` discards
the error).  The level manager passes full file paths here, which begin
with a path separator, so the result is `0` for every registered file. -/
def extractID (path : Bytes) : Nat :=
  let rest := path.dropWhile (fun b => b = 32 || b = 9 || b = 10 || b = 13)
  let ds := rest.takeWhile (fun b => 48 ≤ b && b ≤ 57)
  ds.foldl (fun acc b => acc * 10 + (b - 48)) 0

/-- Stable insertion of an element after every earlier element that is not
greater — one pass of the insertion sort that Go's `sort.Slice` runs on
slices of fewer than 12 elements (the per-level file lists stay far below
that bound before compaction clears them). -/
def insertOrd (lt : α → α → Bool) (x : α) : List α → List α
  | [] => [x]
  | y :: ys => if lt y x then y :: insertOrd lt x ys else x :: y :: ys

/-- Stable insertion sort; on equal sort keys the earlier element stays
first, matching Go's insertion sort. -/
def insertionSortBy (lt : α → α → Bool) : List α → List α
  | [] => []
  | x :: xs => insertOrd lt x (insertionSortBy lt xs)

/-- `Manager.getSortedFilesByLevel` (`sstable/manager.go` lines 331–346):
the level's registered files sorted by
`util.ExtractID(files[i]) < util.ExtractID(files[j])` — ascending extracted
id.  The comparison receives full paths, for which `extractID` is `0`, so
the sort keys are all equal and the stable sort leaves the registration
order (oldest registered first) unchanged. -/
def getSortedTablesByLevel (tables : List SSTMeta) : List SSTMeta :=
  insertionSortBy (fun a b => extractID a.path < extractID b.path) tables

/-- One level of `Manager.Search`: probe each file of the sorted list in
order, returning the first non-nil value. -/
def searchLevelTables : List SSTMeta → Bytes → Option Bytes
  | [], _ => none
  | t :: ts, k =>
    match searchFromTable t k with
    | some v => some v
    | none => searchLevelTables ts k

/-- `sstable.Manager.Search` (`sstable/manager.go` lines 108–137): walk the
levels from 0 upwards (the registry holds levels 0..6; the list below is
that registry in level order), each level through its sorted file list,
and return the first non-nil value; `nil` if every level misses.  The
compaction wait only blocks, it never changes the sequential result. -/
def sstManagerSearch : List (List SSTMeta) → Bytes → Option Bytes
  | [], _ => none
  | lvl :: rest, k =>
    match searchLevelTables (getSortedTablesByLevel lvl) k with
    | some v => some v
    | none => sstManagerSearch rest k

/-- Whole-database state seen by `Database.Get`: active memtable entries,
frozen queue, and the per-level SSTable registry (index 0 is L0). -/
structure DBState where
  mem : List KeyValuePair
  imems : List (List KeyValuePair)
  levels : List (List SSTMeta)
  deriving Repr

/-- `Database.Get` (`database/database.go` lines 24–40): ask the memtable
manager; a non-nil result is returned as is; a nil result (a miss — or a
tombstone hit, which also surfaces as nil) falls through to the SSTable
manager. -/
def dbGet (s : DBState) (k : Bytes) : Option Bytes :=
  match memManagerSearch s.mem s.imems k with
  | some v => some v
  | none => sstManagerSearch s.levels k

/-! ### Go `container/heap` (used by both merge functions)

`heap.Push` appends and sifts up; `heap.Pop` swaps the root with the last
element, sifts down over the shortened range, and removes the last
element.  The Go loops strictly decrease `j` (up) and strictly increase
`i` bounded by `n` (down), so they are written with explicit fuel that the
entry points set high enough for the loops to run to their natural exit. -/

section GoHeap

variable {α : Type} (d : α) (less : α → α → Bool)

/-- `minHeap.Swap`: exchange two positions. -/
def swapL (l : List α) (i j : Nat) : List α :=
  (l.set i (l.getD j d)).set j (l.getD i d)

/-- The `up` sift of `container/heap`: `i := (j-1)/2`; stop when `i == j`
or the child is not less than the parent, else swap and continue from the
parent.  Fuel `j` suffices: `j` strictly decreases and the loop exits at
`j = 0`. -/
def heapUpF : Nat → List α → Nat → List α
  | 0, l, _ => l
  | fuel + 1, l, j =>
    let i := (j - 1) / 2
    if i = j then l
    else if less (l.getD j d) (l.getD i d) then heapUpF fuel (swapL d l i j) i
    else l

/-- The `down` sift of `container/heap` over `l[i..n)`: pick the smaller
child, stop when it is not less than the parent, else swap and descend.
Fuel `n` suffices: `i` at least doubles each pass and the loop exits once
`2*i+1 ≥ n`. -/
def heapDownF : Nat → List α → Nat → Nat → List α
  | 0, l, _, _ => l
  | fuel + 1, l, i, n =>
    let j1 := 2 * i + 1
    if n ≤ j1 then l
    else
      let j := if j1 + 1 < n && less (l.getD (j1 + 1) d) (l.getD j1 d) then j1 + 1 else j1
      if less (l.getD j d) (l.getD i d) then heapDownF fuel (swapL d l i j) j n
      else l

/-- `heap.Push`: append, then sift the new last element up. -/
def heapPushGo (l : List α) (x : α) : List α :=
  heapUpF d less l.length (l ++ [x]) l.length

/-- `heap.Pop`: swap root and last, sift the root down over the shortened
range, return the (original root, now last) element and the rest.  The Go
code panics on an empty heap; every caller guards with `h.Len() > 0`,
modelled as `none`. -/
def heapPopGo (l : List α) : Option (α × List α) :=
  match l with
  | [] => none
  | _ :: _ =>
    let n := l.length - 1
    let l2 := heapDownF d less n (swapL d l 0 n) 0 n
    some (l2.getLastD d, l2.dropLast)

end GoHeap

/-! ### The compaction block merge (`sstable/block/footer.go`,
`CompactAndMergeBlocks`) over the flag representation -/

/-- Flag-representation record: the `kv.KeyValuePair` revision embedded in
`sstable/compaction.go` (fields `Key`, `Value`, `Deleted`). -/
structure KVPairD where
  key : Bytes
  value : Bytes
  deleted : Bool
  deriving Repr, DecidableEq

instance : Inhabited KVPairD := ⟨⟨[], [], false⟩⟩

/-- Size estimate of the flag revision: 1 deleted byte + two uvarint
length fields (counted at their 5-byte maximum) + key + value. -/
def KVPairD.estimateSize (p : KVPairD) : Nat :=
  1 + 5 + p.key.length + 5 + p.value.length

/-- `MergeIterator` of `CompactAndMergeBlocks`: the cached current pair
(`item.pair`) together with the records still ahead of the underlying
block iterator.  `(pair, rest)` stands for a `DataIterator` positioned on
`pair` with `rest` remaining; the code only pushes valid iterators, so the
current pair always exists. -/
abbrev MergeIterD : Type := KVPairD × List KVPairD

/-- `minHeap.Less`: compare the cached pairs by key. -/
def lessIterD (a b : MergeIterD) : Bool := keyLt a.1.key b.1.key

/-- One `DataBlock` under construction inside the builder
(`block.NewDataBlock()` starts with size 0; `Builder.Add` appends to
`Records` without touching the block's `size` field, so it stays 0). -/
structure DataBlockB where
  records : List KVPairD
  size : Nat
  deriving Repr, DecidableEq

/-- `DataBlock.CanInsert`: the block's tracked size plus the estimate
stays under `maxDataBlockSize` (32 KiB). -/
def DataBlockB.canInsert (b : DataBlockB) (p : KVPairD) : Bool :=
  b.size + p.estimateSize < 32 * 1024

/-- `sstable.Builder` (`sstable/builder.go`): the blocks of the table
under construction plus the running size estimate. -/
structure BuilderD where
  blocks : List DataBlockB
  size : Nat
  level : Nat
  deriving Repr, DecidableEq

/-- `NewSSTableBuilder(level)`. -/
def newBuilderD (level : Nat) : BuilderD := ⟨[], 0, level⟩

/-- `Builder.Add`: append to the last block when it can take the pair,
else open a fresh block; always grow the builder's size estimate. -/
def builderAddD (b : BuilderD) (p : KVPairD) : BuilderD :=
  let blocks :=
    match b.blocks.getLast? with
    | none => b.blocks ++ [⟨[p], 0⟩]
    | some lastB =>
      if lastB.canInsert p then
        b.blocks.dropLast ++ [⟨lastB.records ++ [p], lastB.size⟩]
      else b.blocks ++ [⟨[p], 0⟩]
  ⟨blocks, b.size + p.estimateSize, b.level⟩

/-- `Builder.ShouldFlush`: size reached `maxSSTableSize` (2 MiB). -/
def BuilderD.shouldFlush (b : BuilderD) : Bool :=
  2 * 1024 * 1024 ≤ b.size

/-- Index separator keys produced by `Builder.Finalize`: per nonempty
block its last record's key, and additionally the very first block (block
index 0) contributes its first record's key up front. -/
def finalizeKeysGo : Nat → List DataBlockB → List Bytes
  | _, [] => []
  | i, blk :: rest =>
    (if blk.records.isEmpty then []
     else (if i = 0 then [(blk.records.headD default).key] else [])
          ++ [(blk.records.getLastD default).key])
    ++ finalizeKeysGo (i + 1) rest

/-- Output table of the block merge (`Builder.Build`): level, data blocks
and the finalized index keys. -/
structure SSTD where
  level : Nat
  blocks : List DataBlockB
  indexKeys : List Bytes
  deriving Repr, DecidableEq

/-- `Builder.Build` = `Finalize` + return the table. -/
def buildD (b : BuilderD) : SSTD := ⟨b.level, b.blocks, finalizeKeysGo 0 b.blocks⟩

/-- End of the merge loop: flush the builder when it holds anything
(`if builder.size > 0`). -/
def mergeFinishD (b : BuilderD) (res : List SSTD) : List SSTD :=
  if 0 < b.size then res ++ [buildD b] else res

/-- Body of the `CompactAndMergeBlocks` loop: pop the least iterator,
write its cached pair unless `Deleted`, advance and re-push the iterator
when it is still valid, flush a full builder.  One record leaves the heap
each pass, so fuel equal to the total number of records drives the loop to
its natural end. -/
def mergeLoopB : Nat → Nat → List MergeIterD → BuilderD → List SSTD → List SSTD
  | 0, _, _, b, res => mergeFinishD b res
  | fuel + 1, level, h, b, res =>
    match heapPopGo default lessIterD h with
    | none => mergeFinishD b res
    | some (it, h1) =>
      let b1 := if it.1.deleted then b else builderAddD b it.1
      let h2 :=
        match it.2 with
        | [] => h1
        | r :: rs => heapPushGo default lessIterD h1 (r, rs)
      if b1.shouldFlush then mergeLoopB fuel level h2 (newBuilderD level) (res ++ [buildD b1])
      else mergeLoopB fuel level h2 b1 res

/-- Initial heap of `CompactAndMergeBlocks`: one iterator per nonempty
block, pushed in block order. -/
def initItersD (blocks : List (List KVPairD)) : List MergeIterD :=
  blocks.foldl
    (fun h blk =>
      match blk with
      | [] => h
      | r :: rs => heapPushGo default lessIterD h (r, rs))
    []

/-- Total number of records still inside the heap (each iterator holds its
cached pair plus its remaining records). -/
def sumRemIter (h : List MergeIterD) : Nat :=
  (h.map (fun it => it.2.length + 1)).sum

/-- `CompactAndMergeBlocks(blocks, level)` of `sstable/block/footer.go`
lines 279–320: k-way merge the blocks through the min-heap, dropping
records whose `Deleted` flag is set, splitting the output at 2 MiB. -/
def CompactAndMergeBlocks (blocks : List (List KVPairD)) (level : Nat) : List SSTD :=
  let h := initItersD blocks
  mergeLoopB (sumRemIter h) level h (newBuilderD level) []

/-- All records of the produced tables, in output order. -/
def outRecordsD (tables : List SSTD) : List KVPairD :=
  (tables.map (fun t => (t.blocks.map (fun blk => blk.records)).flatten)).flatten

/-- Records accumulated inside a builder, in insertion order. -/
def builderRecsD (b : BuilderD) : List KVPairD :=
  (b.blocks.map (fun blk => blk.records)).flatten

/-- Number of live (non-tombstone) records in a record list. -/
def countND (l : List KVPairD) : Nat := l.countP (fun p => !p.deleted)

/-- Number of live records still inside the heap. -/
def nonDelIter (h : List MergeIterD) : Nat :=
  (h.map (fun it => countND (it.1 :: it.2))).sum

/-! ### The KV merge (`sstable/merge.go`, `CompactAndMergeKVs`) over the
sentinel representation -/

/-- `minHeap.Less` of `merge.go`: compare pairs by key. -/
def lessPairS (a b : KeyValuePair) : Bool := keyLt a.key b.key

/-- Data block of the sentinel-representation builder. -/
structure DataBlockS where
  records : List KeyValuePair
  size : Nat
  deriving Repr, DecidableEq

/-- Sentinel-representation builder state (the `merge.go` revision drives
the same builder shape with sentinel pairs and the sentinel revision's
size estimate). -/
structure BuilderS where
  blocks : List DataBlockS
  size : Nat
  level : Nat
  deriving Repr, DecidableEq

/-- Fresh builder for a level. -/
def newBuilderS (level : Nat) : BuilderS := ⟨[], 0, level⟩

/-- Block capacity test with the sentinel estimate. -/
def DataBlockS.canInsert (b : DataBlockS) (p : KeyValuePair) : Bool :=
  b.size + p.estimateSize < 32 * 1024

/-- `Builder.Add` over sentinel pairs. -/
def builderAddS (b : BuilderS) (p : KeyValuePair) : BuilderS :=
  let blocks :=
    match b.blocks.getLast? with
    | none => b.blocks ++ [⟨[p], 0⟩]
    | some lastB =>
      if lastB.canInsert p then
        b.blocks.dropLast ++ [⟨lastB.records ++ [p], lastB.size⟩]
      else b.blocks ++ [⟨[p], 0⟩]
  ⟨blocks, b.size + p.estimateSize, b.level⟩

/-- `Builder.ShouldFlush` over sentinel pairs. -/
def BuilderS.shouldFlush (b : BuilderS) : Bool :=
  2 * 1024 * 1024 ≤ b.size

/-- Sentinel-representation output table. -/
structure SSTS where
  level : Nat
  blocks : List DataBlockS
  deriving Repr, DecidableEq

/-- Build step of the KV merge. -/
def buildS (b : BuilderS) : SSTS := ⟨b.level, b.blocks⟩

/-- Final flush of the KV merge (`if builder.size > 0`). -/
def kvsFinish (b : BuilderS) (res : List SSTS) : List SSTS :=
  if 0 < b.size then res ++ [buildS b] else res

/-- Loop of `CompactAndMergeKVs` (`sstable/merge.go` lines 57–85): peek
the heap top; a key equal to the last written key is popped and dropped
(dedup, no flush check); otherwise the popped record is written unless it
is a tombstone headed for `maxSSTableLevel` (level 6) or deeper, the last
written key is updated, and a full builder is flushed (resetting the last
written key).  One element leaves the heap each pass, so fuel equal to the
heap size runs the loop to its natural end. -/
def kvsLoop : Nat → Nat → List KeyValuePair → Bytes → BuilderS → List SSTS → List SSTS
  | 0, _, _, _, b, res => kvsFinish b res
  | fuel + 1, level, h, lastKey, b, res =>
    match h with
    | [] => kvsFinish b res
    | top :: _ =>
      if 0 < lastKey.length && top.key = lastKey then
        match heapPopGo default lessPairS h with
        | none => kvsFinish b res
        | some (_, h1) => kvsLoop fuel level h1 lastKey b res
      else
        match heapPopGo default lessPairS h with
        | none => kvsFinish b res
        | some (p, h1) =>
          let write := !p.isDel || decide (level < 6)
          let b1 := if write then builderAddS b p else b
          let lastKey1 := if write then p.key else lastKey
          if b1.shouldFlush then
            kvsLoop fuel level h1 [] (newBuilderS level) (res ++ [buildS b1])
          else kvsLoop fuel level h1 lastKey1 b1 res

/-- `CompactAndMergeKVs(kvs, level)` of `sstable/merge.go` lines 42–94:
push every pair onto the min-heap, then run the dedup/write loop. -/
def CompactAndMergeKVs (kvs : List KeyValuePair) (level : Nat) : List SSTS :=
  let h := kvs.foldl (fun h p => heapPushGo default lessPairS h p) []
  kvsLoop h.length level h [] (newBuilderS level) []

/-- All records of the KV-merge output, in output order. -/
def outRecordsS (tables : List SSTS) : List KeyValuePair :=
  (tables.map (fun t => (t.blocks.map (fun blk => blk.records)).flatten)).flatten

/-! ### Id generation (`memtable/manager.go`, `sstable/sstable.go`,
`sstable/manager.go`, `util` id generator)

The process holds three independent counters, all starting at zero:
the package-level `idGenerator` of `memtable`, the package-level
`util.IDGen`, and the package-level `idGenerator` of `sstable`.
`atomic.Uint64.Add(1)` returns the incremented value. -/

/-- The three process-wide counters. -/
structure IdGens where
  memGen : Nat
  utilGen : Nat
  sstGen : Nat
  deriving Repr, DecidableEq

/-- All counters start at zero. -/
def idGensInit : IdGens := ⟨0, 0, 0⟩

/-- `NewMemTableManager` allocates the initial active memtable's id from
the memtable package's `idGenerator.Add(1)`. -/
def newMemtableManagerId (g : IdGens) : Nat × IdGens :=
  (g.memGen + 1, { g with memGen := g.memGen + 1 })

/-- `Manager.promoteLocked` allocates the replacement memtable's id from
`util.IDGen.Next()` — a different counter. -/
def promoteId (g : IdGens) : Nat × IdGens :=
  (g.utilGen + 1, { g with utilGen := g.utilGen + 1 })

/-- Largest id among the files found on disk (`0` when there are none). -/
def maxIdOnDisk (ids : List Nat) : Nat := ids.foldl max 0

/-- `memtable.Manager.Recover` (lines 134–168): WAL files are sorted by
id ascending; the newest becomes the active memtable, whose id is read
from its file name, and the memtable package's `idGenerator` is advanced
by that id (`idGenerator.Add(maxWalId)`).  Returns the recovered active
memtable's id. -/
def memRecoverGens (walIds : List Nat) (g : IdGens) : Nat × IdGens :=
  (maxIdOnDisk walIds, { g with memGen := g.memGen + maxIdOnDisk walIds })

/-- `sstable.Manager.Recover` (lines 155–192): after registering every
file, advance the sstable package's `idGenerator` by the largest SST id
seen (`idGenerator.Add(maxID)`). -/
def sstRecoverGens (sstIds : List Nat) (g : IdGens) : IdGens :=
  { g with sstGen := g.sstGen + maxIdOnDisk sstIds }

/-- `NewSSTable` allocates the next SST id (`idGenerator.Add(1)`). -/
def newSSTableId (g : IdGens) : Nat × IdGens :=
  (g.sstGen + 1, { g with sstGen := g.sstGen + 1 })

/-- Ids handed out by `n` consecutive `NewSSTable` calls. -/
def allocSSTIds : Nat → IdGens → List Nat × IdGens
  | 0, g => ([], g)
  | n + 1, g =>
    let (id, g1) := newSSTableId g
    let (ids, g2) := allocSSTIds n g1
    (id :: ids, g2)

/-! ### WAL record codec and replay (`kv/kv.go`, `wal/wal.go`)

`WAL.Append` writes one record with `KeyValuePair.EncodeTo`: 4-byte
little-endian key length, key bytes, 4-byte little-endian value length,
value bytes.  `wal.Recover` reads the whole file and decodes records until
the buffer is exhausted, aborting with an error that wraps the file name
when a record fails to decode. -/

/-- Little-endian 4-byte encoding of a `uint32` (Go truncates the length
cast at 32 bits). -/
def u32le (n : Nat) : Bytes :=
  [n % 256, n / 256 % 256, n / 65536 % 256, n / 16777216 % 256]

/-- Little-endian 8-byte encoding of a `uint64`. -/
def u64le (n : Nat) : Bytes :=
  [n % 256, n / 256 % 256, n / 65536 % 256, n / 16777216 % 256,
   n / 4294967296 % 256, n / 1099511627776 % 256,
   n / 281474976710656 % 256, n / 72057594037927936 % 256]

/-- Value of a little-endian byte string. -/
def leVal (bs : Bytes) : Nat := bs.foldr (fun b acc => b + 256 * acc) 0

/-- Read `n` bytes at `pos`; `none` when the data runs out (Go returns
`io.EOF` / `io.ErrUnexpectedEOF` there). -/
def readBytesAt (bs : Bytes) (pos n : Nat) : Option Bytes :=
  if pos + n ≤ bs.length then some ((bs.drop pos).take n) else none

/-- `KeyValuePair.EncodeTo` of `kv/kv.go` (the byte layout written by
`WAL.Append` and by the SST value section's per-value encoder). -/
def encodePair (p : KeyValuePair) : Bytes :=
  u32le p.key.length ++ p.key ++ u32le p.value.length ++ p.value

/-- Bytes of a whole WAL file holding the given records in order. -/
def encodeWal (rs : List KeyValuePair) : Bytes :=
  (rs.map encodePair).flatten

/-- Decode failure stages of `KeyValuePair.DecodeFrom`, in the order the
Go code can raise them (each carries the corresponding `fmt.Errorf`
message: "decode key length", "invalid key length: %d", "decode key",
"decode value length", "invalid value length: %d", "decode value"). -/
inductive WalDecodeErr where
  | keyLenErr : WalDecodeErr
  | invalidKeyLen : Nat → WalDecodeErr
  | keyBytesErr : WalDecodeErr
  | valLenErr : WalDecodeErr
  | invalidValLen : Nat → WalDecodeErr
  | valBytesErr : WalDecodeErr
  deriving Repr, DecidableEq

/-- `KeyValuePair.DecodeFrom` of `kv/kv.go`: 4-byte key length (reject
beyond 1 MiB), key bytes, 4-byte value length (reject beyond 1 GiB),
value bytes.  Success returns the pair and the position after it. -/
def decodePairAt (bs : Bytes) (pos : Nat) : Except WalDecodeErr (KeyValuePair × Nat) :=
  match readBytesAt bs pos 4 with
  | none => .error .keyLenErr
  | some kl =>
    let keyLen := leVal kl
    if 1048576 < keyLen then .error (.invalidKeyLen keyLen)
    else
      match readBytesAt bs (pos + 4) keyLen with
      | none => .error .keyBytesErr
      | some key =>
        match readBytesAt bs (pos + 4 + keyLen) 4 with
        | none => .error .valLenErr
        | some vl =>
          let valLen := leVal vl
          if 1073741824 < valLen then .error (.invalidValLen valLen)
          else
            match readBytesAt bs (pos + 4 + keyLen + 4) valLen with
            | none => .error .valBytesErr
            | some val => .ok (⟨key, val⟩, pos + 4 + keyLen + 4 + valLen)

/-- The error value `wal.Recover` surfaces: the wrapped decode error
together with the file name interpolated into the message
(`"failed to read wal %s: %w"`) — and nothing else; in particular no
offset. -/
structure WalError where
  name : String
  cause : WalDecodeErr
  deriving Repr, DecidableEq

/-- Loop of `wal.Recover` (`wal/wal.go` lines 107–118): while bytes
remain, decode one record and hand it to the callback; a decode failure
aborts with the wrapping error.  Returns the records streamed to the
callback and the error, if any.  A successful decode consumes at least 8
bytes, so fuel `bs.length + 1` always outlasts the loop. -/
def walRecoverGo : Nat → String → Bytes → Nat → List KeyValuePair →
    List KeyValuePair × Option WalError
  | 0, _, _, _, acc => (acc, none)
  | fuel + 1, name, bs, pos, acc =>
    if pos < bs.length then
      match decodePairAt bs pos with
      | .error e => (acc, some ⟨name, e⟩)
      | .ok (p, pos1) => walRecoverGo fuel name bs pos1 (acc ++ [p])
    else (acc, none)

/-- `wal.Recover(path, callback)`. -/
def walRecover (name : String) (bs : Bytes) : List KeyValuePair × Option WalError :=
  walRecoverGo (bs.length + 1) name bs 0 []

/-! ### SST file codec (`sstable/sstable.go` `EncodeTo` / `DecodeFrom` /
`GetDataBlockFromFile`, the single-`DataBlock` revision)

File layout written by `EncodeTo`:
header (`min_key`, `max_key`, each 4-byte length prefixed), the bloom
filter block (8-byte length then the filter's serialized payload,
`bloom.Filter.EncodeTo`), the value section (each value 4-byte length
prefixed, offsets recorded into the index), the index block (per record:
length-prefixed key then 8-byte little-endian offset), and the 32-byte
footer (data handle then index handle, each offset and size as 8-byte
little-endian).

The bitset payload behind `Filter.MarshalBinary` is opaque here (the spec
pins only the filter's membership contract): the filter travels as its
marshalled byte string, which is what alignment of the surrounding fields
depends on. -/

/-- `Key.EncodeTo` / `Value.EncodeTo`: 4-byte little-endian length then
the raw bytes. -/
def encodeLP (k : Bytes) : Bytes := u32le k.length ++ k

/-- Index block bytes (`IndexBlock.Encode`): per entry the length-prefixed
key and the 8-byte little-endian offset recorded while the value section
was written (`EncodeTo` step 4: each value's start offset). -/
def indexBytesGo : List KeyValuePair → Nat → Bytes
  | [], _ => []
  | p :: ps, off => encodeLP p.key ++ u64le off ++ indexBytesGo ps (off + 4 + p.value.length)

/-- `SSTable.EncodeTo` (`sstable/sstable.go` lines 131–193) on a table
holding records `S` (index keys = keys of `S`, data entries = values of
`S`), header keys and a filter payload `P`. -/
def encodeSST (minK maxK P : Bytes) (S : List KeyValuePair) : Bytes :=
  let header := encodeLP minK ++ encodeLP maxK
  let filter := u64le P.length ++ P
  let dataOff := header.length + filter.length
  let values := (S.map (fun p => encodeLP p.value)).flatten
  let index := indexBytesGo S dataOff
  header ++ filter ++ values ++ index ++
    (u64le dataOff ++ u64le values.length ++
     u64le (dataOff + values.length) ++ u64le index.length)

/-- `Key.DecodeFrom`: 4-byte length then the bytes (this reader has no
length cap). -/
def decodeKeyAt (bs : Bytes) (pos : Nat) : Option (Bytes × Nat) :=
  match readBytesAt bs pos 4 with
  | none => none
  | some kl =>
    match readBytesAt bs (pos + 4) (leVal kl) with
    | none => none
    | some k => some (k, pos + 4 + leVal kl)

/-- `Header.DecodeFrom`: min key then max key. -/
def decodeHeaderAt (bs : Bytes) (pos : Nat) : Option ((Bytes × Bytes) × Nat) :=
  match decodeKeyAt bs pos with
  | none => none
  | some (mn, pos1) =>
    match decodeKeyAt bs pos1 with
    | none => none
    | some (mx, pos2) => some ((mn, mx), pos2)

/-- `bloom.Filter.DecodeFrom`: 8-byte payload length then the payload
(handed to `UnmarshalBinary`; the payload itself stands for the filter). -/
def decodeFilterAt (bs : Bytes) (pos : Nat) : Option (Bytes × Nat) :=
  match readBytesAt bs pos 8 with
  | none => none
  | some fl =>
    match readBytesAt bs (pos + 8) (leVal fl) with
    | none => none
    | some pl => some (pl, pos + 8 + leVal fl)

/-- The two footer handles `(dataOff, dataSize, indexOff, indexSize)`
read from the last 32 bytes (`DecodeFooterFrom` + `Footer.DecodeFrom`). -/
def decodeFooter (bs : Bytes) : Option (Nat × Nat × Nat × Nat) :=
  if 32 ≤ bs.length then
    let base := bs.length - 32
    match readBytesAt bs base 8, readBytesAt bs (base + 8) 8,
        readBytesAt bs (base + 16) 8, readBytesAt bs (base + 24) 8 with
    | some a, some b, some c, some d => some (leVal a, leVal b, leVal c, leVal d)
    | _, _, _, _ => none
  else none

/-- Loop of `IndexBlock.DecodeFrom` (`sstable/block/index.go` lines
60–105): until `totalRead` reaches `size` (when `size > 0`), read a
length-prefixed key — erroring when that read already exhausts the
budget — then an 8-byte offset.  Each pass consumes at least 12 bytes, so
fuel `bs.length + 1` outlasts the loop. -/
def decodeIndexGo : Nat → Bytes → Nat → Nat → Nat → List (Bytes × Nat) →
    Option (List (Bytes × Nat))
  | 0, _, _, _, _, _ => none
  | fuel + 1, bs, pos, totalRead, size, acc =>
    if 0 < size ∧ size ≤ totalRead then some acc
    else
      match decodeKeyAt bs pos with
      | none => none
      | some (k, pos1) =>
        let totalRead1 := totalRead + (pos1 - pos)
        if 0 < size ∧ size ≤ totalRead1 then none
        else
          match readBytesAt bs pos1 8 with
          | none => none
          | some ob => decodeIndexGo fuel bs (pos1 + 8) (totalRead1 + 8) size (acc ++ [(k, leVal ob)])

/-- `IndexBlock.DecodeFrom` after seeking to the index handle's offset. -/
def decodeIndex (bs : Bytes) (pos size : Nat) : Option (List (Bytes × Nat)) :=
  decodeIndexGo (bs.length + 1) bs pos 0 size []

/-- Metadata read back by `SSTable.DecodeFrom` (lines 87–128): header and
filter sequentially from the start, footer from the file end, index block
from the index handle. -/
structure SSTFileMeta where
  minKey : Bytes
  maxKey : Bytes
  filterPayload : Bytes
  dataOff : Nat
  dataSize : Nat
  index : List (Bytes × Nat)
  deriving Repr, DecidableEq

/-- `SSTable.DecodeFrom`. -/
def decodeSSTMeta (bs : Bytes) : Option SSTFileMeta :=
  match decodeHeaderAt bs 0 with
  | none => none
  | some ((mn, mx), pos1) =>
    match decodeFilterAt bs pos1 with
    | none => none
    | some (pl, _) =>
      match decodeFooter bs with
      | none => none
      | some (dOff, dSize, iOff, iSize) =>
        match decodeIndex bs iOff iSize with
        | none => none
        | some idx => some ⟨mn, mx, pl, dOff, dSize, idx⟩

/-- Loop of `DataBlock.DecodeFrom` (the `Entries []kv.Value` revision):
read length-prefixed values through a `LimitReader` of the data handle's
size until it reports end of data; a partial length or short value read is
an error.  Each pass consumes at least 4 bytes of the allowance, so fuel
`rem + 1` outlasts the loop. -/
def decodeDataGo : Nat → Bytes → Nat → Nat → List Bytes → Option (List Bytes)
  | 0, _, _, _, _ => none
  | fuel + 1, bs, pos, rem, acc =>
    let avail := min rem (bs.length - pos)
    if avail = 0 then some acc
    else if avail < 4 then none
    else
      let vl := leVal ((bs.drop pos).take 4)
      if avail - 4 < vl then none
      else decodeDataGo fuel bs (pos + 4 + vl) (rem - (4 + vl)) (acc ++ [(bs.drop (pos + 4)).take vl])

/-- `SSTable.DecodeDataBlock`: seek the data handle and decode the value
section. -/
def decodeData (bs : Bytes) (dOff dSize : Nat) : Option (List Bytes) :=
  decodeDataGo (dSize + 1) bs dOff dSize []

/-- `GetDataBlockFromFile` + `GetKeyValuePairs` (`sstable/sstable.go`
lines 227–268): decode the data section, then zip index keys with the
entries; an empty side yields no pairs, mismatched counts are an error. -/
def getDataBlockPairs (bs : Bytes) (meta : SSTFileMeta) : Option (List KeyValuePair) :=
  match decodeData bs meta.dataOff meta.dataSize with
  | none => none
  | some entries =>
    if entries.length = 0 ∨ meta.index.length = 0 then some []
    else if entries.length ≠ meta.index.length then none
    else some ((meta.index.zip entries).map (fun e => ⟨e.1.1, e.2⟩))

/-- Read an SST file back: metadata decode followed by the full-scan
load. -/
def sstReadBack (bs : Bytes) : Option (List KeyValuePair) :=
  match decodeSSTMeta bs with
  | none => none
  | some meta => getDataBlockPairs bs meta

/-- Concatenation of length-prefixed byte strings (the shape of the SST
value section: each value as written by `Value.EncodeTo`). -/
def lpConcat (vs : List Bytes) : Bytes := (vs.map encodeLP).flatten

/-- Abstract content of the index block written by `EncodeTo`: each record
key paired with the file offset its value was written at (the running
offset of `indexBytesGo`). -/
def indexPairsGo : List KeyValuePair → Nat → List (Bytes × Nat)
  | [], _ => []
  | p :: ps, off => (p.key, off) :: indexPairsGo ps (off + 4 + p.value.length)

/-! ### Concrete fixtures used by the closed theorems below -/

/-- Key "k". -/
def kA : Bytes := [107]

/-- Value "v1". -/
def vOld : Bytes := [118, 49]

/-- Value "v2". -/
def vNew : Bytes := [118, 50]

/-- Absolute path of the L0 SST with id 1: `ExtractID` sees the leading
`/` and yields 0. -/
def pathSst1 : Bytes :=
  [47, 116, 109, 112, 47, 100, 98, 47, 115, 115, 116, 97, 98, 108, 101, 47,
   48, 45, 108, 101, 118, 101, 108, 47, 49, 46, 115, 115, 116]

/-- Absolute path of the L0 SST with id 2. -/
def pathSst2 : Bytes :=
  [47, 116, 109, 112, 47, 100, 98, 47, 115, 115, 116, 97, 98, 108, 101, 47,
   48, 45, 108, 101, 118, 101, 108, 47, 50, 46, 115, 115, 116]

/-- L0 table with id 1 holding the live record `(kA, vOld)`. -/
def tblOld : SSTMeta := ⟨1, pathSst1, kA, kA, [kA], [⟨kA, vOld⟩]⟩

/-- L0 table with id 2 holding the live record `(kA, vNew)`. -/
def tblNew : SSTMeta := ⟨2, pathSst2, kA, kA, [kA], [⟨kA, vNew⟩]⟩

/-- L0 table with id 1 holding a tombstone record for `kA` (the sentinel
written to disk by flushing a deleted entry). -/
def tblTomb : SSTMeta := ⟨1, pathSst1, kA, kA, [kA], [⟨kA, deletedValue⟩]⟩

/-- The seven-level registry with only the given L0 tables. -/
def levelsWith (l0 : List SSTMeta) : List (List SSTMeta) :=
  [l0, [], [], [], [], [], []]

/-! ### Order facts about `keyLt` and correctness of the cursor seek -/

theorem keyLt_irrefl (a : Bytes) : keyLt a a = false := by
  induction a with
  | nil => rfl
  | cons x xs ih => simp [keyLt, ih]

theorem keyLt_asymm {a b : Bytes} (h : keyLt a b = true) : keyLt b a = false := by
  induction a generalizing b with
  | nil =>
    cases b with
    | nil => simp [keyLt] at h
    | cons y ys => simp [keyLt]
  | cons x xs ih =>
    cases b with
    | nil => simp [keyLt] at h
    | cons y ys =>
      by_cases hxy : x < y
      · simp [keyLt, hxy, Nat.lt_asymm hxy, Nat.ne_of_gt hxy]
      · by_cases hyx : y < x
        · simp [keyLt, hxy, hyx] at h
        · have hxy' : x = y := Nat.le_antisymm (Nat.le_of_not_lt hyx) (Nat.le_of_not_lt hxy)
          subst hxy'
          simp only [keyLt, if_neg hxy, if_neg hyx] at h ⊢
          simp [Nat.lt_irrefl, ih h]

theorem keyLt_antisymm {a b : Bytes} (hab : keyLt a b = false)
    (hba : keyLt b a = false) : a = b := by
  induction a generalizing b with
  | nil =>
    cases b with
    | nil => rfl
    | cons y ys => simp [keyLt] at hab
  | cons x xs ih =>
    cases b with
    | nil => simp [keyLt] at hba
    | cons y ys =>
      by_cases hxy : x < y
      · simp [keyLt, hxy] at hab
      · by_cases hyx : y < x
        · simp [keyLt, hyx] at hba
        · have hxy' : x = y := Nat.le_antisymm (Nat.le_of_not_lt hyx) (Nat.le_of_not_lt hxy)
          subst hxy'
          simp only [keyLt, if_neg hxy, Nat.lt_irrefl, if_neg (by omega : ¬ x < x)] at hab hba
          exact congrArg (x :: ·) (ih hab hba)

theorem keyLt_trans {a b c : Bytes} (hab : keyLt a b = true)
    (hbc : keyLt b c = true) : keyLt a c = true := by
  induction a generalizing b c with
  | nil =>
    cases c with
    | nil =>
      cases b with
      | nil => exact hab
      | cons y ys => simp [keyLt] at hbc
    | cons z zs => simp [keyLt]
  | cons x xs ih =>
    cases b with
    | nil => simp [keyLt] at hab
    | cons y ys =>
      cases c with
      | nil => simp [keyLt] at hbc
      | cons z zs =>
        by_cases hxy : x < y <;> by_cases hyz : y < z
        · simp [keyLt, Nat.lt_trans hxy hyz]
        · have hzy : z ≤ y := Nat.le_of_not_lt hyz
          by_cases hzy' : z < y
          · simp [keyLt, hyz, hzy'] at hbc
          · have : y = z := Nat.le_antisymm (Nat.le_of_not_lt hzy') hzy
            subst this
            simp [keyLt, hxy]
        · have : x = y := Nat.le_antisymm (Nat.le_of_not_lt (by
            intro hcon
            simp [keyLt, hxy, hcon] at hab)) (Nat.le_of_not_lt hxy)
          subst this
          simp [keyLt, hyz]
        · have hx_eq : x = y := by
            by_cases hyx : y < x
            · simp [keyLt, hxy, hyx] at hab
            · exact Nat.le_antisymm (Nat.le_of_not_lt hyx) (Nat.le_of_not_lt hxy)
          have hy_eq : y = z := by
            by_cases hzy : z < y
            · simp [keyLt, hyz, hzy] at hbc
            · exact Nat.le_antisymm (Nat.le_of_not_lt hzy) (Nat.le_of_not_lt hyz)
          subst hx_eq; subst hy_eq
          simp only [keyLt, if_neg hxy, if_neg hxy] at hab hbc ⊢
          have h1 := hab; have h2 := hbc
          simp only [Nat.lt_irrefl, if_false] at h1 h2 ⊢
          exact ih h1 h2


/-- Invariant of the seek loop: starting from a window whose boundaries
carry the facts below (everything before `left` is `< target`, the key at
`right` when inside the list is `≥ target`), the loop returns the first
position whose key is `≥ target`, expressed via the same boundary facts
at the returned position. -/
theorem lowerBoundGoF_spec (recs : List KeyValuePair) (k : Bytes) :
    ∀ fuel left right, right - left ≤ fuel → left ≤ right →
    right ≤ recs.length →
    (0 < left → keyLt (recs.getD (left - 1) default).key k = true) →
    (right < recs.length → keyLt (recs.getD right default).key k = false) →
    left ≤ lowerBoundGoF fuel recs k left right ∧
    lowerBoundGoF fuel recs k left right ≤ right ∧
    (0 < lowerBoundGoF fuel recs k left right →
      keyLt (recs.getD (lowerBoundGoF fuel recs k left right - 1) default).key k = true) ∧
    (lowerBoundGoF fuel recs k left right < recs.length →
      keyLt (recs.getD (lowerBoundGoF fuel recs k left right) default).key k = false) := by
  intro fuel
  induction fuel with
  | zero =>
    intro left right hn hlr hrl hpre1 hpre2
    have heq : left = right := by omega
    subst heq
    exact ⟨le_refl _, le_refl _, hpre1, hpre2⟩
  | succ n ih =>
    intro left right hn hlr hrl hpre1 hpre2
    by_cases hlt : left < right
    · have hmid1 : left ≤ (left + right) / 2 := by omega
      have hmid2 : (left + right) / 2 < right := by omega
      by_cases hkey : keyLt (recs.getD ((left + right) / 2) default).key k = true
      · have hunf : lowerBoundGoF (n + 1) recs k left right
            = lowerBoundGoF n recs k ((left + right) / 2 + 1) right := by
          simp only [lowerBoundGoF, if_pos hlt, hkey, if_true]
        rw [hunf]
        have h := ih ((left + right) / 2 + 1) right (by omega) (by omega) hrl
          (fun _ => by simpa using hkey) hpre2
        exact ⟨by omega, h.2.1, h.2.2.1, h.2.2.2⟩
      · have hkey' : keyLt (recs.getD ((left + right) / 2) default).key k = false := by
          simpa using hkey
        have hunf : lowerBoundGoF (n + 1) recs k left right
            = lowerBoundGoF n recs k left ((left + right) / 2) := by
          simp only [lowerBoundGoF, if_pos hlt, hkey']
          simp
        rw [hunf]
        have h := ih left ((left + right) / 2) (by omega) (by omega) (by omega)
          hpre1 (fun _ => hkey')
        exact ⟨h.1, by omega, h.2.2.1, h.2.2.2⟩
    · have hunf : lowerBoundGoF (n + 1) recs k left right = left := by
        simp only [lowerBoundGoF, if_neg hlt]
      rw [hunf]
      have heq : left = right := by omega
      subst heq
      exact ⟨le_refl _, le_refl _, hpre1, hpre2⟩

/-- On a strictly key-ordered table that passes `MayContain`, the seek
finds a present record and `SearchFromTable` returns the raw stored value
of that record — whatever those bytes are, including the tombstone
sentinel. -/
theorem searchFromTable_found (t : SSTMeta) (k v : Bytes)
    (hs : t.records.Pairwise (fun p q => keyLt p.key q.key = true))
    (hm : t.mayContain k = true)
    (hmem : (⟨k, v⟩ : KeyValuePair) ∈ t.records) :
    searchFromTable t k = some v := by
  obtain ⟨m, hmlt, hmeq⟩ := List.mem_iff_getElem.mp hmem
  have hsorted := List.pairwise_iff_getElem.mp hs
  have hspec := lowerBoundGoF_spec t.records k t.records.length 0 t.records.length
    (by omega) (by omega) (le_refl _) (by omega) (by omega)
  rw [show lowerBoundGoF t.records.length t.records k 0 t.records.length
      = lowerBoundGo t.records k 0 t.records.length by
    simp [lowerBoundGo]] at hspec
  set r := lowerBoundGo t.records k 0 t.records.length with hr
  -- r ≤ m: otherwise the key just before r is < k but sits at or after m
  have hrm : r ≤ m := by
    by_contra hcon
    push_neg at hcon
    have h0r : 0 < r := by omega
    have hlast := hspec.2.2.1 h0r
    have hr1 : r - 1 < t.records.length := by omega
    rw [List.getD_eq_getElem t.records default hr1] at hlast
    rcases Nat.lt_or_ge m (r - 1) with hmlt2 | hge
    · have hij := hsorted m (r - 1) hmlt hr1 hmlt2
      rw [hmeq] at hij
      have := keyLt_trans hij hlast
      rw [keyLt_irrefl] at this
      exact Bool.false_ne_true this
    · have hm_eq : m = r - 1 := by omega
      subst hm_eq
      rw [hmeq] at hlast
      simp [keyLt_irrefl] at hlast
  -- m ≤ r: otherwise the key at r is ≥ k but strictly before position m
  have hmr : m ≤ r := by
    by_contra hcon
    push_neg at hcon
    have hrlen : r < t.records.length := by omega
    have hat := hspec.2.2.2 hrlen
    rw [List.getD_eq_getElem t.records default hrlen] at hat
    have hij := hsorted r m hrlen hmlt hcon
    rw [hmeq] at hij
    rw [show (⟨k, v⟩ : KeyValuePair).key = k from rfl] at hij
    rw [hat] at hij
    exact Bool.false_ne_true hij
  have hreq : r = m := by omega
  unfold searchFromTable
  rw [hm, if_pos rfl]
  simp only [← hr, hreq]
  rw [List.get?_eq_getElem?, List.getElem?_eq_getElem hmlt, hmeq]
  simp

/-! ### Read-path helper lemmas -/

/-- After `Add`, searching the added pair's key sees exactly that pair:
a live pair surfaces its value, a sentinel-valued pair surfaces `nil`
with the found flag set. -/
theorem skipSearch_skipAdd (l : List KeyValuePair) (p : KeyValuePair) :
    skipSearch (skipAdd l p) p.key
      = (if p.isDel then none else some p.value, true) := by
  induction l with
  | nil => by_cases hd : p.isDel <;> simp [skipAdd, skipSearch, hd]
  | cons q qs ih =>
    by_cases hlt : keyLt q.key p.key = true
    · have hne : q.key ≠ p.key := by
        intro he
        rw [he, keyLt_irrefl] at hlt
        exact Bool.false_ne_true hlt
      simp [skipAdd, hlt, skipSearch, hne, ih]
    · by_cases heq : q.key = p.key
      · by_cases hd : p.isDel <;>
          simp [skipAdd, hlt, heq, keyLt_irrefl, skipSearch, hd]
      · by_cases hd : p.isDel <;> simp [skipAdd, hlt, heq, skipSearch, hd]

/-- A search that hits the first table of the level list returns its
value. -/
theorem searchLevelTables_head (t : SSTMeta) (ts : List SSTMeta) (k v : Bytes)
    (h : searchFromTable t k = some v) :
    searchLevelTables (t :: ts) k = some v := by
  simp [searchLevelTables, h]

/-- A level manager search whose first level produces a value stops
there, whatever sits in deeper levels. -/
theorem sstManagerSearch_first (l0 : List SSTMeta) (rest : List (List SSTMeta))
    (k v : Bytes)
    (h : searchLevelTables (getSortedTablesByLevel l0) k = some v) :
    sstManagerSearch (l0 :: rest) k = some v := by
  simp [sstManagerSearch, h]

/-- Sorting a single-table level is the identity. -/
theorem getSorted_single (t : SSTMeta) : getSortedTablesByLevel [t] = [t] := rfl

/-- Stability of the id sort on a two-table level: when the first
registered table's extracted id does not exceed the second's, the sort
keeps registration order.  (With absolute paths both extracted ids are 0.) -/
theorem getSorted_pair (t1 t2 : SSTMeta)
    (hord : extractID t1.path ≤ extractID t2.path) :
    getSortedTablesByLevel [t1, t2] = [t1, t2] := by
  simp only [getSortedTablesByLevel, insertionSortBy, insertOrd]
  rw [if_neg]
  simp only [decide_eq_true_eq]
  omega

/-! ## C1 — delete shadowing -/

/-- C1 (code bug evidence): the claim says that after `delete(k)` a
`get(k)` returns `None` regardless of prior `put`s at any level.  In the
state reached by `put(k, v1)`, flushing it into an L0 SSTable, then
`delete(k)` (tombstone in the active memtable), `Database.Get` returns
the old value `v1`: the memtable manager collapses the tombstone hit to
`nil`, which `Get` cannot tell apart from a miss, so the lookup falls
through to the SSTables and surfaces the shadowed record. -/
theorem c1_delete_not_shadowing_sstables :
    dbGet ⟨mgrDeleteEntries [] kA, [], levelsWith [tblOld]⟩ kA = some vOld := by
  decide

/-! ## C2 — tombstones in the level manager's search -/

/-- C2 counterexample: the claim says a found tombstone makes the search
return `None` and that the tombstone's raw sentinel bytes are never
returned as the value.  On a level-0 table holding the tombstone record
for `kA`, `Manager.Search` returns exactly the sentinel bytes (and not
`None`): `SearchFromTable` never inspects the value it found. -/
theorem c2_counterexample_sentinel_returned :
    sstManagerSearch (levelsWith [tblTomb]) kA ≠ none ∧
    sstManagerSearch (levelsWith [tblTomb]) kA = some deletedValue := by
  constructor
  · decide
  · decide

/-- C2 amended: in the level manager's search, when the cursor seek finds
`k` in an examined table, the search returns that record's raw stored
value — for a tombstone these are the sentinel bytes — and this outcome
terminates the search: deeper levels (`rest`) never influence the
result. -/
theorem c2_found_record_returned_raw (t : SSTMeta) (k v : Bytes)
    (rest : List (List SSTMeta))
    (hs : t.records.Pairwise (fun p q => keyLt p.key q.key = true))
    (hm : t.mayContain k = true)
    (hmem : (⟨k, v⟩ : KeyValuePair) ∈ t.records) :
    sstManagerSearch ([t] :: rest) k = some v := by
  apply sstManagerSearch_first
  rw [getSorted_single]
  exact searchLevelTables_head t [] k v (searchFromTable_found t k v hs hm hmem)

/-- C2 witness: the amended theorem applied to the concrete tombstone
table — the sentinel bytes come back as the value, deeper levels
untouched. -/
theorem c2_found_record_returned_raw_witness :
    sstManagerSearch ([tblTomb] :: [[], [], []]) kA = some deletedValue :=
  c2_found_record_returned_raw tblTomb kA deletedValue [[], [], []]
    (by decide) (by decide) (by decide)

/-! ## C5 — lookup order across levels -/

/-- C5 counterexample: the claim says L0 SSTables are consulted
newest-first (strictly decreasing id) and that with two L0 tables both
holding `k` the larger id's value is returned.  With the id-1 table
registered before the id-2 table, `Database.Get` returns the id-1 (older)
table's value: the level search sorts files by ascending extracted id,
and `ExtractID` on full paths yields 0, leaving registration order
(oldest first). -/
theorem c5_counterexample_l0_oldest_wins :
    dbGet ⟨[], [], levelsWith [tblOld, tblNew]⟩ kA = some vOld ∧ vOld ≠ vNew := by
  constructor
  · decide
  · decide

/-- C5 amended: the lookup order is active memtable, then frozen
memtables newest-first, then L0 in ascending `ExtractID` order — all 0 for
the absolute paths the manager registers, so registration order, oldest
(smallest id) first — then the deeper levels in the same manner.  With an
empty memtable side and two L0 tables, the earlier-registered table that
contains `k` answers, whatever the later table holds. -/
theorem c5_l0_ascending_order (t1 t2 : SSTMeta) (k v : Bytes)
    (rest : List (List SSTMeta))
    (hord : extractID t1.path ≤ extractID t2.path)
    (hs : t1.records.Pairwise (fun p q => keyLt p.key q.key = true))
    (hm : t1.mayContain k = true)
    (hmem : (⟨k, v⟩ : KeyValuePair) ∈ t1.records) :
    dbGet ⟨[], [], (t1 :: t2 :: []) :: rest⟩ k = some v := by
  have hfound := searchFromTable_found t1 k v hs hm hmem
  have hsorted := getSorted_pair t1 t2 hord
  simp only [dbGet, memManagerSearch, skipSearch, List.reverse_nil, searchIMems]
  simp [sstManagerSearch, hsorted, searchLevelTables, hfound]

/-- C5 witness: the amended order applied to the concrete pair of L0
tables with ids 1 and 2 — the id-1 table wins. -/
theorem c5_l0_ascending_order_witness :
    dbGet ⟨[], [], (tblOld :: tblNew :: []) :: [[], []]⟩ kA = some vOld :=
  c5_l0_ascending_order tblOld tblNew kA vOld [[], []]
    (by decide) (by decide) (by decide) (by decide)

/-! ## C8 — memtable size estimate -/

/-- C8 counterexample: the claim says the estimate added per inserted
record is `4 + len(key) + 4 + len(value) + 1`.  For the record
`("k", "v1")` that formula gives 12, while the memtable's byte count grows
by `4 + 1 + 4 + 2 + 8 = 19` (`EstimateSize` reserves 8 bytes for the value
offset, not 1). -/
theorem c8_counterexample_estimate :
    (Memtable.insert ⟨[], 0⟩ ⟨kA, vOld⟩).sizeInBytes
      ≠ 4 + kA.length + 4 + vOld.length + 1 := by
  decide

/-- C8 amended: every insert grows the memtable's byte count by the
record's encoded WAL size plus 8 bytes reserved for a value offset, i.e.
`4 + len(key) + 4 + len(value) + 8`. -/
theorem c8_estimate_adds_encoded_size_plus_eight (t : Memtable) (p : KeyValuePair) :
    (t.insert p).sizeInBytes = t.sizeInBytes + ((encodePair p).length + 8) := by
  simp [Memtable.insert, KeyValuePair.estimateSize, encodePair, u32le]
  omega

/-! ## C10 — sentinel-valued put is delete -/

/-- C10 counterexample: the claim says a `put(k, v)` with `v` equal to the
sentinel is indistinguishable from `delete(k)` **and** that a subsequent
`get(k)` never returns the user-supplied value.  Once such a record has
been flushed into an L0 SSTable, `get(k)` returns exactly the sentinel
bytes — the user-supplied value. -/
theorem c10_counterexample_get_returns_sentinel :
    dbGet ⟨[], [], levelsWith [tblTomb]⟩ kA = some deletedValue := by
  decide

/-- C10 amended: a `put(k, v)` whose value bytes equal the sentinel is
indistinguishable from `delete(k)`: (a) the in-memory search reports the
entry deleted (returns nil) whatever was stored before; (b) the KV merge
at the bottom level (level 6) drops the record; (c) but while the record
sits in an SSTable, `get(k)` returns the raw sentinel bytes — which are
the user-supplied value — rather than nothing. -/
theorem c10_sentinel_put_is_delete :
    (∀ (mem : List KeyValuePair) (imems : List (List KeyValuePair)) (k : Bytes),
      memManagerSearch (skipAdd mem ⟨k, deletedValue⟩) imems k = none) ∧
    (∀ k : Bytes, CompactAndMergeKVs [⟨k, deletedValue⟩] 6 = []) ∧
    (∀ (t : SSTMeta) (k : Bytes) (rest : List (List SSTMeta)),
      t.records.Pairwise (fun p q => keyLt p.key q.key = true) →
      t.mayContain k = true →
      (⟨k, deletedValue⟩ : KeyValuePair) ∈ t.records →
      dbGet ⟨[], [], [t] :: rest⟩ k = some deletedValue) := by
  refine ⟨?_, ?_, ?_⟩
  · intro mem imems k
    have h := skipSearch_skipAdd mem ⟨k, deletedValue⟩
    have hdel : (⟨k, deletedValue⟩ : KeyValuePair).isDel = true := by
      simp [KeyValuePair.isDel]
    rw [hdel, if_pos rfl] at h
    simp [memManagerSearch, h]
  · intro k
    have hdel : (⟨k, deletedValue⟩ : KeyValuePair).isDel = true := by
      simp [KeyValuePair.isDel]
    simp [CompactAndMergeKVs, heapPushGo, heapUpF, kvsLoop, heapPopGo, swapL,
      heapDownF, hdel, BuilderS.shouldFlush, newBuilderS, kvsFinish]
  · intro t k rest hs hm hmem
    have hfound := searchFromTable_found t k deletedValue hs hm hmem
    simp only [dbGet, memManagerSearch, skipSearch, List.reverse_nil, searchIMems]
    simp [sstManagerSearch, getSorted_single, searchLevelTables, hfound]

/-- C10 witness: the three amended facts at concrete inputs — search
after storing the sentinel misses, the bottom-level merge emits nothing,
and the flushed record surfaces as the sentinel value. -/
theorem c10_sentinel_put_is_delete_witness :
    memManagerSearch (skipAdd [] ⟨kA, deletedValue⟩) [] kA = none ∧
    CompactAndMergeKVs [⟨kA, deletedValue⟩] 6 = [] ∧
    dbGet ⟨[], [], [tblTomb] :: [[]]⟩ kA = some deletedValue :=
  ⟨c10_sentinel_put_is_delete.1 [] [] kA,
   c10_sentinel_put_is_delete.2.1 kA,
   c10_sentinel_put_is_delete.2.2 tblTomb kA [[]]
     (by decide) (by decide) (by decide)⟩

/-! ## C6 — id monotonicity -/

/-- C6 counterexample: the claim says SST and memtable ids are strictly
increasing across a process lifetime and that after `recover()` every
newly allocated id strictly exceeds every id on disk.  Both parts fail
for memtable ids, because manager construction draws from the memtable
package's `idGenerator` while promotion draws from the independent
`util.IDGen`:

* fresh process: the initial active memtable gets id 1 and the first
  promotion also hands out id 1 — not strictly increasing;
* recovery with WAL file `7.wal` on disk: the next promotion still hands
  out id 1, which does not exceed the id 7 found on disk. -/
theorem c6_counterexample_memtable_ids :
    ((newMemtableManagerId idGensInit).1 = 1 ∧
      (promoteId (newMemtableManagerId idGensInit).2).1 = 1) ∧
    (promoteId (memRecoverGens [7] idGensInit).2).1 = 1 ∧ (1 : Nat) < 7 := by
  decide

/-- Every element of a list is bounded by a `foldl max`, and the seed is
too. -/
theorem le_foldl_max (l : List Nat) :
    ∀ a : Nat, a ≤ l.foldl max a ∧ ∀ x ∈ l, x ≤ l.foldl max a := by
  induction l with
  | nil => intro a; simp
  | cons y ys ih =>
    intro a
    refine ⟨?_, ?_⟩
    · calc a ≤ max a y := le_max_left _ _
        _ ≤ ys.foldl max (max a y) := (ih (max a y)).1
    · intro x hx
      rcases List.mem_cons.mp hx with hx | hx
      · subst hx
        calc x ≤ max a x := le_max_right _ _
          _ ≤ ys.foldl max (max a x) := (ih (max a x)).1
      · exact (ih (max a y)).2 x hx

/-- The ids handed out by consecutive `NewSSTable` calls are the
consecutive values above the generator. -/
theorem allocSSTIds_eq (m : Nat) : ∀ g0 : IdGens,
    (allocSSTIds m g0).1 = (List.range m).map (fun i => g0.sstGen + i + 1) := by
  induction m with
  | zero => intro g0; simp [allocSSTIds]
  | succ m ih =>
    intro g0
    simp only [allocSSTIds, newSSTableId, ih]
    rw [List.range_succ_eq_map]
    simp only [List.map_cons, List.map_map]
    congr 1
    apply List.map_congr_left
    intro i _
    simp [Function.comp]
    omega

/-- C6 amended: restricted to SSTable ids the claim holds — `NewSSTable`
ids are strictly increasing across a process lifetime, and after
`sstable.Manager.Recover` every subsequently allocated SST id strictly
exceeds every SST id found on disk. -/
theorem c6_sst_ids_monotone (g : IdGens) (diskIds : List Nat) (n : Nat) :
    List.Chain' (· < ·) (allocSSTIds n (sstRecoverGens diskIds g)).1 ∧
    (∀ d ∈ diskIds, ∀ a ∈ (allocSSTIds n (sstRecoverGens diskIds g)).1, d < a) := by
  rw [allocSSTIds_eq]
  constructor
  · apply List.Pairwise.chain'
    apply List.Pairwise.map (fun i => (sstRecoverGens diskIds g).sstGen + i + 1)
      (S := (· < ·)) (fun a b hab => by
        have hab2 : a < b := hab
        dsimp only
        omega)
    exact List.pairwise_lt_range n
  · intro d hd a ha
    simp only [List.mem_map, List.mem_range] at ha
    obtain ⟨i, _, hi⟩ := ha
    have hdm : d ≤ maxIdOnDisk diskIds := (le_foldl_max diskIds 0).2 d hd
    simp only [sstRecoverGens] at hi
    omega

/-- C6 witness: three SST ids allocated after recovering disk ids
`{3, 7, 5}` — the list is strictly increasing and every disk id is below
every allocated id. -/
theorem c6_sst_ids_monotone_witness :
    List.Chain' (· < ·) (allocSSTIds 3 (sstRecoverGens [3, 7, 5] idGensInit)).1 ∧
    (∀ d ∈ [3, 7, 5], ∀ a ∈ (allocSSTIds 3 (sstRecoverGens [3, 7, 5] idGensInit)).1, d < a) :=
  c6_sst_ids_monotone idGensInit [3, 7, 5] 3

/-! ### Heap accounting

The merge loops pop one element per pass.  The lemmas below show that the
`container/heap` operations only permute the list, expressed through an
arbitrary `Nat`-valued weight whose total they preserve. -/

section HeapAccounting

variable {α : Type} (d : α) (less : α → α → Bool) (f : α → Nat)

/-- Setting a position exchanges its weight for the new element's. -/
theorem mapSum_set :
    ∀ (l : List α) (i : Nat), i < l.length → ∀ x : α,
    ((l.set i x).map f).sum + f (l.getD i d) = (l.map f).sum + f x := by
  intro l
  induction l with
  | nil => intro i hi; simp at hi
  | cons y ys ih =>
    intro i hi x
    cases i with
    | zero => simp [List.set]; omega
    | succ i =>
      simp only [List.set, List.map_cons, List.sum_cons, List.getD_cons_succ]
      have := ih i (by simpa using hi) x
      omega

/-- Reading back a freshly set position. -/
theorem getD_set_self :
    ∀ (l : List α) (i : Nat), i < l.length → ∀ x : α, (l.set i x).getD i d = x := by
  intro l
  induction l with
  | nil => intro i hi; simp at hi
  | cons y ys ih =>
    intro i hi x
    cases i with
    | zero => rfl
    | succ i => exact ih i (by simpa using hi) x

/-- Reading an untouched position after a set. -/
theorem getD_set_ne :
    ∀ (l : List α) (i j : Nat), i ≠ j → ∀ x : α, (l.set i x).getD j d = l.getD j d := by
  intro l
  induction l with
  | nil => intro i j _ x; simp [List.set]
  | cons y ys ih =>
    intro i j hij x
    cases i with
    | zero =>
      cases j with
      | zero => exact absurd rfl hij
      | succ j => rfl
    | succ i =>
      cases j with
      | zero => rfl
      | succ j => exact ih i j (by omega) x

/-- `Swap` preserves the total weight. -/
theorem mapSum_swapL (l : List α) (i j : Nat) (hi : i < l.length)
    (hj : j < l.length) : ((swapL d l i j).map f).sum = (l.map f).sum := by
  unfold swapL
  have h1 := mapSum_set d f l i hi (l.getD j d)
  have h2 := mapSum_set d f (l.set i (l.getD j d)) j (by simpa using hj) (l.getD i d)
  by_cases hij : i = j
  · subst hij
    rw [getD_set_self d l i hi] at h2
    omega
  · rw [getD_set_ne d l i j hij] at h2
    omega

/-- Length is preserved by `Swap`. -/
theorem length_swapL (l : List α) (i j : Nat) :
    (swapL d l i j).length = l.length := by
  simp [swapL]

/-- The up sift preserves the total weight. -/
theorem mapSum_heapUpF :
    ∀ (fuel : Nat) (l : List α) (j : Nat), j < l.length →
    ((heapUpF d less fuel l j).map f).sum = (l.map f).sum := by
  intro fuel
  induction fuel with
  | zero => intro l j _; rfl
  | succ n ih =>
    intro l j hj
    show ((if (j - 1) / 2 = j then l
        else if less (l.getD j d) (l.getD ((j - 1) / 2) d) then
          heapUpF d less n (swapL d l ((j - 1) / 2) j) ((j - 1) / 2)
        else l).map f).sum = (l.map f).sum
    by_cases hij : (j - 1) / 2 = j
    · rw [if_pos hij]
    · rw [if_neg hij]
      by_cases hless : less (l.getD j d) (l.getD ((j - 1) / 2) d) = true
      · rw [if_pos hless]
        have hi : (j - 1) / 2 < l.length := by omega
        rw [ih (swapL d l ((j - 1) / 2) j) ((j - 1) / 2)
          (by rw [length_swapL]; omega)]
        exact mapSum_swapL d f l ((j - 1) / 2) j hi hj
      · rw [if_neg (by simpa using hless)]

/-- The down sift preserves the total weight. -/
theorem mapSum_heapDownF :
    ∀ (fuel : Nat) (l : List α) (i n : Nat), i < l.length → n ≤ l.length →
    ((heapDownF d less fuel l i n).map f).sum = (l.map f).sum := by
  intro fuel
  induction fuel with
  | zero => intro l i n _ _; rfl
  | succ m ih =>
    intro l i n hi hn
    show ((if n ≤ 2 * i + 1 then l
        else
          (fun j => if less (l.getD j d) (l.getD i d) then
              heapDownF d less m (swapL d l i j) j n
            else l)
          (if 2 * i + 1 + 1 < n && less (l.getD (2 * i + 1 + 1) d) (l.getD (2 * i + 1) d)
            then 2 * i + 1 + 1 else 2 * i + 1)).map f).sum = (l.map f).sum
    by_cases hexit : n ≤ 2 * i + 1
    · rw [if_pos hexit]
    · rw [if_neg hexit]
      set j := if 2 * i + 1 + 1 < n && less (l.getD (2 * i + 1 + 1) d) (l.getD (2 * i + 1) d)
        then 2 * i + 1 + 1 else 2 * i + 1 with hjdef
      have hjn : j < n := by
        rw [hjdef]
        split
        · next hcond =>
          have hlt := ((Bool.and_eq_true _ _).mp hcond).1
          simp only [decide_eq_true_eq] at hlt
          omega
        · omega
      simp only []
      by_cases hless : less (l.getD j d) (l.getD i d) = true
      · rw [if_pos hless]
        rw [ih (swapL d l i j) j n (by rw [length_swapL]; omega) (by rw [length_swapL]; omega)]
        exact mapSum_swapL d f l i j hi (by omega)
      · rw [if_neg (by simpa using hless)]

/-- `heap.Push` adds the pushed element's weight. -/
theorem mapSum_heapPushGo (l : List α) (x : α) :
    ((heapPushGo d less l x).map f).sum = (l.map f).sum + f x := by
  unfold heapPushGo
  rw [mapSum_heapUpF d less f l.length (l ++ [x]) l.length (by simp)]
  simp

/-- `heap.Push` grows the heap by one element. -/
theorem length_heapUpF :
    ∀ (fuel : Nat) (l : List α) (j : Nat),
    (heapUpF d less fuel l j).length = l.length := by
  intro fuel
  induction fuel with
  | zero => intro l j; rfl
  | succ n ih =>
    intro l j
    show (if (j - 1) / 2 = j then l
        else if less (l.getD j d) (l.getD ((j - 1) / 2) d) then
          heapUpF d less n (swapL d l ((j - 1) / 2) j) ((j - 1) / 2)
        else l).length = l.length
    split
    · rfl
    · split
      · rw [ih, length_swapL]
      · rfl

/-- The down sift preserves length. -/
theorem length_heapDownF :
    ∀ (fuel : Nat) (l : List α) (i n : Nat),
    (heapDownF d less fuel l i n).length = l.length := by
  intro fuel
  induction fuel with
  | zero => intro l i n; rfl
  | succ m ih =>
    intro l i n
    show (if n ≤ 2 * i + 1 then l
        else
          (fun j => if less (l.getD j d) (l.getD i d) then
              heapDownF d less m (swapL d l i j) j n
            else l)
          (if 2 * i + 1 + 1 < n && less (l.getD (2 * i + 1 + 1) d) (l.getD (2 * i + 1) d)
            then 2 * i + 1 + 1 else 2 * i + 1)).length = l.length
    split
    · rfl
    · simp only []
      split
      · split
        · rw [ih, length_swapL]
        · rfl
      · split
        · rw [ih, length_swapL]
        · rfl

/-- Splitting off the last element splits its weight off the total. -/
theorem mapSum_dropLast_getLastD (l : List α) (hne : l ≠ []) :
    ((l.dropLast).map f).sum + f (l.getLastD d) = (l.map f).sum := by
  conv_rhs => rw [← List.dropLast_append_getLast hne]
  rw [List.getLastD_eq_getLast?, List.getLast?_eq_getLast l hne]
  simp

/-- `heap.Pop` on a nonempty heap returns some element and the rest,
carving the element's weight out of the total and shrinking the heap by
one. -/
theorem heapPopGo_spec (l : List α) (hne : l ≠ []) :
    ∃ x rest, heapPopGo d less l = some (x, rest) ∧
      (rest.map f).sum + f x = (l.map f).sum ∧
      rest.length = l.length - 1 := by
  match l, hne with
  | y :: ys, _ =>
    refine ⟨_, _, rfl, ?_, ?_⟩
    · have hlen : (y :: ys).length - 1 < (y :: ys).length := by simp
      have hsum : ((heapDownF d less ((y :: ys).length - 1)
          (swapL d (y :: ys) 0 ((y :: ys).length - 1)) 0 ((y :: ys).length - 1)).map f).sum
          = ((y :: ys).map f).sum := by
        rw [mapSum_heapDownF d less f _ _ 0 _
          (by rw [length_swapL]; simp) (by rw [length_swapL]; omega)]
        exact mapSum_swapL d f (y :: ys) 0 ((y :: ys).length - 1) (by simp) hlen
      have hlen2 : (heapDownF d less ((y :: ys).length - 1)
          (swapL d (y :: ys) 0 ((y :: ys).length - 1)) 0 ((y :: ys).length - 1)).length
          = (y :: ys).length := by
        rw [length_heapDownF, length_swapL]
      have hne2 : heapDownF d less ((y :: ys).length - 1)
          (swapL d (y :: ys) 0 ((y :: ys).length - 1)) 0 ((y :: ys).length - 1) ≠ [] := by
        intro hcon
        rw [hcon] at hlen2
        simp at hlen2
      rw [← hsum]
      exact mapSum_dropLast_getLastD d f _ hne2
    · rw [List.length_dropLast, length_heapDownF, length_swapL]

end HeapAccounting

/-! ### Builder and merge-loop accounting -/

/-- `Builder.Add` appends exactly the added record to the builder's
record sequence (whether it extends the last block or opens a new one). -/
theorem builderRecsD_add (b : BuilderD) (p : KVPairD) :
    builderRecsD (builderAddD b p) = builderRecsD b ++ [p] := by
  unfold builderAddD builderRecsD
  cases hl : b.blocks.getLast? with
  | none =>
    have hnil : b.blocks = [] := List.getLast?_eq_none_iff.mp hl
    simp [hnil]
  | some lastB =>
    have hne : b.blocks ≠ [] := by
      intro hcon
      rw [hcon] at hl
      simp at hl
    have hlast : b.blocks.getLast hne = lastB := by
      rw [List.getLast?_eq_getLast _ hne] at hl
      exact Option.some.inj hl
    have hsplit : b.blocks = b.blocks.dropLast ++ [lastB] := by
      conv_lhs => rw [← List.dropLast_append_getLast hne]
      rw [hlast]
    by_cases hins : lastB.canInsert p = true
    · simp only [hins, if_pos rfl]
      conv_rhs => rw [hsplit]
      simp [List.append_assoc]
    · simp only [hins]
      rw [if_neg (by simp)]
      simp

/-- The builder's size is positive exactly when it holds records (each
added record contributes an estimate of at least 11 bytes). -/
theorem builderAddD_size_pos (b : BuilderD) (p : KVPairD) :
    0 < (builderAddD b p).size := by
  have h11 : 11 ≤ p.estimateSize := by
    unfold KVPairD.estimateSize
    omega
  show 0 < b.size + p.estimateSize
  omega

/-- Output records of a flush: the builder's records land after the
previous output. -/
theorem outRecordsD_append_build (res : List SSTD) (b : BuilderD) :
    outRecordsD (res ++ [buildD b]) = outRecordsD res ++ builderRecsD b := by
  simp [outRecordsD, buildD, builderRecsD]

/-- Final flush accounting, under the size/records agreement. -/
theorem mergeFinishD_count (b : BuilderD) (res : List SSTD)
    (hsz : 0 < b.size ↔ builderRecsD b ≠ []) :
    (outRecordsD (mergeFinishD b res)).length
      = (outRecordsD res).length + (builderRecsD b).length := by
  unfold mergeFinishD
  by_cases hpos : 0 < b.size
  · rw [if_pos hpos, outRecordsD_append_build]
    simp
  · rw [if_neg hpos]
    have : builderRecsD b = [] := by
      by_contra hcon
      exact hpos (hsz.mpr hcon)
    rw [this]
    simp

/-- A heap of zero total remaining records is empty. -/
theorem sumRemIter_eq_zero (h : List MergeIterD) (hz : sumRemIter h = 0) :
    h = [] := by
  cases h with
  | nil => rfl
  | cons y ys =>
    exfalso
    simp [sumRemIter] at hz

/-- Count of live records across a cons. -/
theorem countND_cons (p : KVPairD) (l : List KVPairD) :
    countND (p :: l) = (if p.deleted then 0 else 1) + countND l := by
  unfold countND
  rw [List.countP_cons]
  by_cases hd : p.deleted
  · simp [hd]
  · simp [hd]
    omega

/-- Weight accounting of a successful `heap.Pop`, phrased on the result. -/
theorem heapPopGo_sum {α : Type} (d : α) (less : α → α → Bool) (f : α → Nat)
    (l rest : List α) (x : α) (hpop : heapPopGo d less l = some (x, rest)) :
    (rest.map f).sum + f x = (l.map f).sum ∧ rest.length = l.length - 1 := by
  have hne : l ≠ [] := by
    intro hcon
    rw [hcon] at hpop
    simp [heapPopGo] at hpop
  obtain ⟨x2, rest2, hpop2, hsum, hlen⟩ := heapPopGo_spec d less f l hne
  rw [hpop] at hpop2
  have hinj := Option.some.inj hpop2
  have hxe : x = x2 := congrArg Prod.fst hinj
  have hre : rest = rest2 := congrArg Prod.snd hinj
  rw [hxe, hre]
  exact ⟨hsum, hlen⟩

/-- Every pass of the merge loop moves one record out of the heap, so the
records written to the output are exactly the live records: output length
equals previous output plus builder content plus the heap's live count. -/
theorem mergeLoopB_count :
    ∀ (fuel : Nat) (h : List MergeIterD) (b : BuilderD) (res : List SSTD) (level : Nat),
    sumRemIter h ≤ fuel →
    (0 < b.size ↔ builderRecsD b ≠ []) →
    (outRecordsD (mergeLoopB fuel level h b res)).length
      = (outRecordsD res).length + (builderRecsD b).length + nonDelIter h := by
  intro fuel
  induction fuel with
  | zero =>
    intro h b res level hfuel hsz
    have hnil : h = [] := sumRemIter_eq_zero h (by omega)
    subst hnil
    simp only [mergeLoopB, nonDelIter, List.map_nil, List.sum_nil]
    rw [mergeFinishD_count b res hsz]
    omega
  | succ n ih =>
    intro h b res level hfuel hsz
    cases hpop : heapPopGo default lessIterD h with
    | none =>
      have hnil : h = [] := by
        cases h with
        | nil => rfl
        | cons y ys => simp [heapPopGo] at hpop
      subst hnil
      simp only [mergeLoopB, heapPopGo]
      rw [mergeFinishD_count b res hsz]
      simp [nonDelIter]
    | some pr =>
      obtain ⟨x, rest⟩ := pr
      obtain ⟨hsum1, hlen1⟩ := heapPopGo_sum default lessIterD
        (fun it => it.2.length + 1) h rest x hpop
      obtain ⟨hsum2, _⟩ := heapPopGo_sum default lessIterD
        (fun it => countND (it.1 :: it.2)) h rest x hpop
      have hsumH : sumRemIter h = sumRemIter rest + (x.2.length + 1) := by
        unfold sumRemIter
        omega
      have hndH : nonDelIter h = nonDelIter rest + countND (x.1 :: x.2) := by
        unfold nonDelIter
        omega
      have hcnt : countND (x.1 :: x.2) = (if x.1.deleted then 0 else 1) + countND x.2 :=
        countND_cons x.1 x.2
      have hnewB : (builderRecsD (newBuilderD level)).length = 0 := by
        simp [newBuilderD, builderRecsD]
      have hnewBsz : 0 < (newBuilderD level).size ↔ builderRecsD (newBuilderD level) ≠ [] := by
        simp [newBuilderD, builderRecsD]
      have houtApp : ∀ bb : BuilderD,
          (outRecordsD (res ++ [buildD bb])).length
            = (outRecordsD res).length + (builderRecsD bb).length := by
        intro bb
        rw [outRecordsD_append_build]
        simp
      have haddlen : (builderRecsD (builderAddD b x.1)).length
          = (builderRecsD b).length + 1 := by
        rw [builderRecsD_add]
        simp
      have haddsz : 0 < (builderAddD b x.1).size ↔ builderRecsD (builderAddD b x.1) ≠ [] := by
        constructor
        · intro _
          rw [builderRecsD_add]
          simp
        · intro _
          exact builderAddD_size_pos b x.1
      -- the heap after advancing the popped iterator
      simp only [mergeLoopB, hpop]
      cases hx2 : x.2 with
      | nil =>
        have hsumH2 : sumRemIter rest ≤ n := by
          rw [hx2] at hsumH
          omega
        have hnd2 : countND x.2 = 0 := by rw [hx2]; rfl
        by_cases hdel : x.1.deleted = true
        · have hcnt2 : countND (x.1 :: x.2) = 0 := by
            rw [hcnt, hdel, hnd2]
            simp
          simp only [hdel, eq_self_iff_true, if_true, hx2]
          by_cases hfl : b.shouldFlush = true
          · simp only [hfl, eq_self_iff_true, if_true]
            rw [ih rest (newBuilderD level) (res ++ [buildD b]) level hsumH2 hnewBsz,
              houtApp b, hnewB, hndH, hcnt2]
            omega
          · rw [if_neg (by simpa using hfl)]
            rw [ih rest b res level hsumH2 hsz, hndH, hcnt2]
            omega
        · have hdelF : x.1.deleted = false := by simpa using hdel
          have hcnt2 : countND (x.1 :: x.2) = 1 := by
            rw [hcnt, hdelF, hnd2]
            simp
          simp only [hdelF, Bool.false_eq_true, if_false, hx2]
          by_cases hfl : (builderAddD b x.1).shouldFlush = true
          · simp only [hfl, eq_self_iff_true, if_true]
            rw [ih rest (newBuilderD level) (res ++ [buildD (builderAddD b x.1)]) level
              hsumH2 hnewBsz, houtApp (builderAddD b x.1), haddlen, hnewB, hndH, hcnt2]
            omega
          · rw [if_neg (by simpa using hfl)]
            rw [ih rest (builderAddD b x.1) res level hsumH2 haddsz, haddlen, hndH, hcnt2]
            omega
      | cons r rs =>
        have hpush1 : sumRemIter (heapPushGo default lessIterD rest (r, rs))
            = sumRemIter rest + x.2.length := by
          unfold sumRemIter
          rw [mapSum_heapPushGo default lessIterD (fun it => it.2.length + 1) rest (r, rs)]
          rw [hx2]
          simp
        have hpush2 : nonDelIter (heapPushGo default lessIterD rest (r, rs))
            = nonDelIter rest + countND x.2 := by
          unfold nonDelIter
          rw [mapSum_heapPushGo default lessIterD
            (fun it => countND (it.1 :: it.2)) rest (r, rs)]
          rw [hx2]
        have hsumH2 : sumRemIter (heapPushGo default lessIterD rest (r, rs)) ≤ n := by
          rw [hpush1]
          omega
        by_cases hdel : x.1.deleted = true
        · have hcnt2 : countND (x.1 :: x.2) = countND x.2 := by
            rw [hcnt, hdel]
            simp
          simp only [hdel, eq_self_iff_true, if_true, hx2]
          by_cases hfl : b.shouldFlush = true
          · simp only [hfl, eq_self_iff_true, if_true]
            rw [ih (heapPushGo default lessIterD rest (r, rs)) (newBuilderD level)
              (res ++ [buildD b]) level hsumH2 hnewBsz,
              houtApp b, hnewB, hpush2, hndH, hcnt2]
            omega
          · rw [if_neg (by simpa using hfl)]
            rw [ih (heapPushGo default lessIterD rest (r, rs)) b res level hsumH2 hsz,
              hpush2, hndH, hcnt2]
        · have hdelF : x.1.deleted = false := by simpa using hdel
          have hcnt2 : countND (x.1 :: x.2) = 1 + countND x.2 := by
            rw [hcnt, hdelF]
            simp
          simp only [hdelF, Bool.false_eq_true, if_false, hx2]
          by_cases hfl : (builderAddD b x.1).shouldFlush = true
          · simp only [hfl, eq_self_iff_true, if_true]
            rw [ih (heapPushGo default lessIterD rest (r, rs)) (newBuilderD level)
              (res ++ [buildD (builderAddD b x.1)]) level hsumH2 hnewBsz,
              houtApp (builderAddD b x.1), haddlen, hnewB, hpush2, hndH, hcnt2]
            omega
          · rw [if_neg (by simpa using hfl)]
            rw [ih (heapPushGo default lessIterD rest (r, rs)) (builderAddD b x.1)
              res level hsumH2 haddsz, haddlen, hpush2, hndH, hcnt2]
            omega

/-- Live-record count distributes over append. -/
theorem countND_append (a b : List KVPairD) :
    countND (a ++ b) = countND a + countND b := by
  unfold countND
  rw [List.countP_append]

/-- Live-record count of the initial heap: one iterator per nonempty
block, carrying exactly the block's live records. -/
theorem nonDelIter_initIters (blocks : List (List KVPairD)) :
    nonDelIter (initItersD blocks) = countND blocks.flatten := by
  suffices hgen : ∀ (bl : List (List KVPairD)) (h0 : List MergeIterD),
      nonDelIter (bl.foldl
        (fun h blk =>
          match blk with
          | [] => h
          | r :: rs => heapPushGo default lessIterD h (r, rs)) h0)
        = nonDelIter h0 + countND bl.flatten by
    have := hgen blocks []
    simpa [initItersD, nonDelIter] using this
  intro bl
  induction bl with
  | nil => intro h0; simp [countND]
  | cons blk rest ih =>
    intro h0
    cases blk with
    | nil =>
      simp only [List.foldl_cons, List.flatten_cons, List.nil_append]
      exact ih h0
    | cons r rs =>
      simp only [List.foldl_cons, List.flatten_cons]
      rw [ih]
      have h2 : nonDelIter (heapPushGo default lessIterD h0 (r, rs))
          = nonDelIter h0 + countND (r :: rs) := by
        simpa [nonDelIter] using mapSum_heapPushGo default lessIterD
          (fun it => countND (it.1 :: it.2)) h0 (r, rs)
      rw [h2, countND_append]
      omega

/-- Total remaining count of the initial heap equals the number of input
records (needed only to seed the fuel bound). -/
theorem sumRemIter_initIters (blocks : List (List KVPairD)) :
    sumRemIter (initItersD blocks) = (blocks.map List.length).sum := by
  suffices hgen : ∀ (bl : List (List KVPairD)) (h0 : List MergeIterD),
      sumRemIter (bl.foldl
        (fun h blk =>
          match blk with
          | [] => h
          | r :: rs => heapPushGo default lessIterD h (r, rs)) h0)
        = sumRemIter h0 + (bl.map List.length).sum by
    have := hgen blocks []
    simpa [initItersD, sumRemIter] using this
  intro bl
  induction bl with
  | nil => intro h0; simp
  | cons blk rest ih =>
    intro h0
    cases blk with
    | nil =>
      simp only [List.foldl_cons, List.map_cons, List.sum_cons, List.length_nil]
      rw [ih]
      omega
    | cons r rs =>
      simp only [List.foldl_cons, List.map_cons, List.sum_cons]
      rw [ih]
      have h2 : sumRemIter (heapPushGo default lessIterD h0 (r, rs))
          = sumRemIter h0 + (rs.length + 1) := by
        simpa [sumRemIter] using mapSum_heapPushGo default lessIterD
          (fun it => it.2.length + 1) h0 (r, rs)
      rw [h2]
      simp only [List.length_cons]
      omega

/-! ## C3 — dedup in the compaction merge -/

/-- C3 counterexample: the claim says that when the same key appears in
more than one merge input, exactly one record for that key is written to
the output.  Merging two blocks that both hold key `"a"` produces an
output containing two records for `"a"`: `CompactAndMergeBlocks` performs
no deduplication at all. -/
theorem c3_counterexample_no_dedup :
    (outRecordsD (CompactAndMergeBlocks
        [[⟨[97], [49], false⟩], [⟨[97], [50], false⟩]] 1)).countP
      (fun p => p.key = [97]) = 2 := by
  decide

/-- C3 amended: the compaction block merge writes every non-tombstone
input record to the output and drops every tombstone — duplicated keys
are not deduplicated and freshness is never consulted: the output record
count equals the number of live input records, duplicates included. -/
theorem c3_merge_writes_all_live_records (blocks : List (List KVPairD)) (level : Nat) :
    (outRecordsD (CompactAndMergeBlocks blocks level)).length
      = countND blocks.flatten := by
  unfold CompactAndMergeBlocks
  rw [mergeLoopB_count (sumRemIter (initItersD blocks)) (initItersD blocks)
    (newBuilderD level) [] level (le_refl _)
    (by simp [newBuilderD, builderRecsD])]
  rw [nonDelIter_initIters]
  simp [outRecordsD, newBuilderD, builderRecsD]

/-! ## C4 — tombstones in the compaction output -/

/-- C4 counterexample: the claim says tombstones are dropped only when
the target level is the bottom level (6); at any other target every
surviving tombstone appears in the output.  Merging a single tombstone
record into target level 1 produces an empty output — the tombstone is
dropped below the bottom level too. -/
theorem c4_counterexample_tombstone_dropped_below_lmax :
    CompactAndMergeBlocks [[⟨[107], [], true⟩]] 1 = [] := by
  decide

/-- Membership form of the final flush. -/
theorem mergeFinishD_clean (b : BuilderD) (res : List SSTD)
    (hb : ∀ p ∈ builderRecsD b, p.deleted = false)
    (hres : ∀ p ∈ outRecordsD res, p.deleted = false) :
    ∀ p ∈ outRecordsD (mergeFinishD b res), p.deleted = false := by
  intro p hp
  unfold mergeFinishD at hp
  by_cases hpos : 0 < b.size
  · rw [if_pos hpos, outRecordsD_append_build] at hp
    rcases List.mem_append.mp hp with hp | hp
    · exact hres p hp
    · exact hb p hp
  · rw [if_neg hpos] at hp
    exact hres p hp

/-- The merge loop never emits a record whose `Deleted` flag is set, at
any fuel, from any clean builder and output. -/
theorem mergeLoopB_clean :
    ∀ (fuel : Nat) (h : List MergeIterD) (b : BuilderD) (res : List SSTD) (level : Nat),
    (∀ p ∈ builderRecsD b, p.deleted = false) →
    (∀ p ∈ outRecordsD res, p.deleted = false) →
    ∀ p ∈ outRecordsD (mergeLoopB fuel level h b res), p.deleted = false := by
  intro fuel
  induction fuel with
  | zero =>
    intro h b res level hb hres
    exact mergeFinishD_clean b res hb hres
  | succ n ih =>
    intro h b res level hb hres
    cases hpop : heapPopGo default lessIterD h with
    | none =>
      simp only [mergeLoopB, hpop]
      exact mergeFinishD_clean b res hb hres
    | some pr =>
      obtain ⟨x, rest⟩ := pr
      simp only [mergeLoopB, hpop]
      have hb1 : ∀ q ∈ builderRecsD (if x.1.deleted then b else builderAddD b x.1),
          q.deleted = false := by
        by_cases hdel : x.1.deleted = true
        · simp only [hdel, eq_self_iff_true, if_true]
          exact hb
        · have hdelF : x.1.deleted = false := by simpa using hdel
          simp only [hdelF, Bool.false_eq_true, if_false]
          intro q hq
          rw [builderRecsD_add] at hq
          rcases List.mem_append.mp hq with hq | hq
          · exact hb q hq
          · rw [List.mem_singleton.mp hq]
            exact hdelF
      set b1 := if x.1.deleted then b else builderAddD b x.1 with hb1def
      set h2 := (match x.2 with
        | [] => rest
        | r :: rs => heapPushGo default lessIterD rest (r, rs)) with hh2def
      by_cases hfl : b1.shouldFlush = true
      · simp only [hfl, eq_self_iff_true, if_true]
        apply ih h2 (newBuilderD level) (res ++ [buildD b1]) level
        · simp [newBuilderD, builderRecsD]
        · intro q hq
          rw [outRecordsD_append_build] at hq
          rcases List.mem_append.mp hq with hq | hq
          · exact hres q hq
          · exact hb1 q hq
      · rw [if_neg (by simpa using hfl)]
        exact ih h2 b1 res level hb1 hres

/-- C4 amended: no tombstone record ever appears in the output of the
compaction block merge, whatever the target level — tombstones are
dropped everywhere, not only at the bottom level. -/
theorem c4_merge_drops_all_tombstones (blocks : List (List KVPairD)) (level : Nat) :
    ∀ p ∈ outRecordsD (CompactAndMergeBlocks blocks level), p.deleted = false := by
  unfold CompactAndMergeBlocks
  exact mergeLoopB_clean _ _ _ _ level (by simp [newBuilderD, builderRecsD])
    (by simp [outRecordsD])

/-- C4 witness: the amended theorem applied to a merge whose output does
contain a record — the live record survives with a clear flag. -/
theorem c4_merge_drops_all_tombstones_witness :
    (⟨[97], [49], false⟩ : KVPairD).deleted = false :=
  c4_merge_drops_all_tombstones [[⟨[97], [49], false⟩]] 1 ⟨[97], [49], false⟩
    (by decide)

/-! ### Byte-level reading lemmas -/

/-- Length of the 4-byte little-endian field. -/
theorem u32le_length (n : Nat) : (u32le n).length = 4 := rfl

/-- Length of the 8-byte little-endian field. -/
theorem u64le_length (n : Nat) : (u64le n).length = 8 := rfl

/-- Reading back a 4-byte little-endian field below `2^32`. -/
theorem leVal_u32le (n : Nat) (h : n < 4294967296) : leVal (u32le n) = n := by
  unfold leVal u32le
  simp only [List.foldr]
  omega

/-- Reading back an 8-byte little-endian field below `2^64`. -/
theorem leVal_u64le (n : Nat) (h : n < 18446744073709551616) : leVal (u64le n) = n := by
  unfold leVal u64le
  simp only [List.foldr]
  omega

/-- Reading a whole middle segment of the byte string. -/
theorem readBytesAt_prefix_all (A C B : Bytes) :
    readBytesAt (A ++ (C ++ B)) A.length C.length = some C := by
  unfold readBytesAt
  have hle : A.length + C.length ≤ (A ++ (C ++ B)).length := by simp
  rw [if_pos hle, List.drop_left, List.take_left]

/-- A read that runs past the end of the data fails. -/
theorem readBytesAt_too_far (bs : Bytes) (pos n : Nat) (h : bs.length < pos + n) :
    readBytesAt bs pos n = none := by
  unfold readBytesAt
  rw [if_neg (by omega)]

/-- Positioned variant of the segment read: the byte string is given by an
equation, the position by its prefix length. -/
theorem readBytesAt_at (bs A C B : Bytes) (pos n : Nat)
    (hbs : bs = A ++ (C ++ B)) (hpos : pos = A.length) (hn : n = C.length) :
    readBytesAt bs pos n = some C := by
  subst hbs hpos hn
  exact readBytesAt_prefix_all A C B

/-- Positioned drop/take extraction (for readers that slice without a
bounds test). -/
theorem dropTake_at (bs A C B : Bytes) (pos n : Nat)
    (hbs : bs = A ++ (C ++ B)) (hpos : pos = A.length) (hn : n = C.length) :
    (bs.drop pos).take n = C := by
  subst hbs hpos hn
  rw [List.drop_left, List.take_left]

/-- Encoded size of one WAL record: two 4-byte length fields plus the raw
key and value bytes. -/
theorem encodePair_length (p : KeyValuePair) :
    (encodePair p).length = p.key.length + p.value.length + 8 := by
  simp [encodePair, u32le]
  omega

/-- `encodeWal` unfolds one record at a time. -/
theorem encodeWal_cons (p : KeyValuePair) (rs : List KeyValuePair) :
    encodeWal (p :: rs) = encodePair p ++ encodeWal rs := by
  simp [encodeWal]

/-- Each record occupies at least one byte, so the record count is bounded
by the file size. -/
theorem length_le_encodeWal (rs : List KeyValuePair) :
    rs.length ≤ (encodeWal rs).length := by
  induction rs with
  | nil => simp [encodeWal]
  | cons p ps ih =>
    rw [encodeWal_cons, List.length_append, List.length_cons, encodePair_length]
    omega

/-- `KeyValuePair.DecodeFrom` on a buffer holding a well-formed encoded
record at the read position: it succeeds, returns the record, and leaves
the position right after it. -/
theorem decodePairAt_encodePair (A B : Bytes) (p : KeyValuePair)
    (hk : p.key.length ≤ 1048576) (hv : p.value.length ≤ 1073741824) :
    decodePairAt (A ++ (encodePair p ++ B)) A.length =
      .ok (p, A.length + (encodePair p).length) := by
  have hk32 : leVal (u32le p.key.length) = p.key.length := leVal_u32le _ (by omega)
  have hv32 : leVal (u32le p.value.length) = p.value.length := leVal_u32le _ (by omega)
  have h1 : readBytesAt (A ++ (encodePair p ++ B)) A.length 4 =
      some (u32le p.key.length) :=
    readBytesAt_at _ A _ (p.key ++ (u32le p.value.length ++ (p.value ++ B))) _ _
      (by simp [encodePair]) rfl (u32le_length _).symm
  have h2 : readBytesAt (A ++ (encodePair p ++ B)) (A.length + 4) p.key.length =
      some p.key :=
    readBytesAt_at _ (A ++ u32le p.key.length) p.key (u32le p.value.length ++ (p.value ++ B)) _ _
      (by simp [encodePair]) (by simp [u32le]) rfl
  have h3 : readBytesAt (A ++ (encodePair p ++ B)) (A.length + 4 + p.key.length) 4 =
      some (u32le p.value.length) :=
    readBytesAt_at _ ((A ++ u32le p.key.length) ++ p.key) _ (p.value ++ B) _ _
      (by simp [encodePair]) (by simp [u32le]; omega) (u32le_length _).symm
  have h4 : readBytesAt (A ++ (encodePair p ++ B)) (A.length + 4 + p.key.length + 4)
      p.value.length = some p.value :=
    readBytesAt_at _ (((A ++ u32le p.key.length) ++ p.key) ++ u32le p.value.length)
      p.value B _ _ (by simp [encodePair]) (by simp [u32le]; omega) rfl
  unfold decodePairAt
  simp only [h1, hk32]
  rw [if_neg (by omega)]
  simp only [h2, h3, hv32]
  rw [if_neg (by omega)]
  simp only [h4]
  have harr : A.length + 4 + p.key.length + 4 + p.value.length
      = A.length + (encodePair p).length := by rw [encodePair_length]; omega
  rw [harr]

/-- The `wal.Recover` loop on a buffer that is exactly an encoded record
stream: every record is handed to the callback in file order and the loop
ends cleanly at end of file. -/
theorem walRecoverGo_clean (name : String) :
    ∀ (rs : List KeyValuePair) (fuel : Nat) (A : Bytes) (acc : List KeyValuePair),
    (∀ p ∈ rs, p.key.length ≤ 1048576 ∧ p.value.length ≤ 1073741824) →
    rs.length < fuel →
    walRecoverGo fuel name (A ++ encodeWal rs) A.length acc = (acc ++ rs, none) := by
  intro rs
  induction rs with
  | nil =>
    intro fuel A acc _ hfuel
    cases fuel with
    | zero => omega
    | succ f => simp [walRecoverGo, encodeWal]
  | cons p ps ih =>
    intro fuel A acc hwf hfuel
    cases fuel with
    | zero => omega
    | succ f =>
      have hp := hwf p (List.mem_cons_self p ps)
      have hwf' : ∀ q ∈ ps, q.key.length ≤ 1048576 ∧ q.value.length ≤ 1073741824 :=
        fun q hq => hwf q (List.mem_cons_of_mem p hq)
      have hfuel' : ps.length < f := by
        simp only [List.length_cons] at hfuel
        omega
      have hassoc : A ++ encodeWal (p :: ps) = A ++ (encodePair p ++ encodeWal ps) := by
        rw [encodeWal_cons]
      have hdec : decodePairAt (A ++ encodeWal (p :: ps)) A.length =
          .ok (p, A.length + (encodePair p).length) := by
        rw [hassoc]
        exact decodePairAt_encodePair A _ p hp.1 hp.2
      have hlt : A.length < (A ++ encodeWal (p :: ps)).length := by
        rw [encodeWal_cons]
        simp only [List.length_append, encodePair_length]
        omega
      simp only [walRecoverGo]
      rw [if_pos hlt]
      simp only [hdec]
      rw [hassoc, ← List.append_assoc, ← List.length_append]
      rw [ih f (A ++ encodePair p) (acc ++ [p]) hwf' hfuel']
      simp

/-- The `wal.Recover` loop on an encoded record stream followed by a
non-empty tail whose decode fails: the records are streamed in file order
and the loop aborts with the wrapping error. -/
theorem walRecoverGo_error (name : String) :
    ∀ (rs : List KeyValuePair) (fuel : Nat) (A B : Bytes) (acc : List KeyValuePair)
      (e : WalDecodeErr),
    (∀ p ∈ rs, p.key.length ≤ 1048576 ∧ p.value.length ≤ 1073741824) →
    rs.length < fuel →
    B ≠ [] →
    decodePairAt (A ++ (encodeWal rs ++ B)) (A.length + (encodeWal rs).length) = .error e →
    walRecoverGo fuel name (A ++ (encodeWal rs ++ B)) A.length acc =
      (acc ++ rs, some ⟨name, e⟩) := by
  intro rs
  induction rs with
  | nil =>
    intro fuel A B acc e _ hfuel hB hdec
    cases fuel with
    | zero => omega
    | succ f =>
      have hBlen : 0 < B.length := by
        cases B with
        | nil => exact absurd rfl hB
        | cons b bs => simp
      have hlt : A.length < (A ++ (encodeWal [] ++ B)).length := by
        simp only [encodeWal, List.map_nil, List.flatten_nil, List.nil_append,
          List.length_append]
        omega
      have h0 : (encodeWal []).length = 0 := rfl
      rw [h0, Nat.add_zero] at hdec
      simp only [walRecoverGo]
      rw [if_pos hlt]
      simp only [hdec]
      simp
  | cons p ps ih =>
    intro fuel A B acc e hwf hfuel hB hdec
    cases fuel with
    | zero => omega
    | succ f =>
      have hp := hwf p (List.mem_cons_self p ps)
      have hwf' : ∀ q ∈ ps, q.key.length ≤ 1048576 ∧ q.value.length ≤ 1073741824 :=
        fun q hq => hwf q (List.mem_cons_of_mem p hq)
      have hfuel' : ps.length < f := by
        simp only [List.length_cons] at hfuel
        omega
      have hassoc : A ++ (encodeWal (p :: ps) ++ B)
          = A ++ (encodePair p ++ (encodeWal ps ++ B)) := by
        simp [encodeWal_cons, List.append_assoc]
      have hassoc2 : A ++ (encodeWal (p :: ps) ++ B)
          = (A ++ encodePair p) ++ (encodeWal ps ++ B) := by
        simp [encodeWal_cons, List.append_assoc]
      have hdec0 : decodePairAt (A ++ (encodeWal (p :: ps) ++ B)) A.length =
          .ok (p, A.length + (encodePair p).length) := by
        rw [hassoc]
        exact decodePairAt_encodePair A _ p hp.1 hp.2
      have hlt : A.length < (A ++ (encodeWal (p :: ps) ++ B)).length := by
        rw [encodeWal_cons]
        simp only [List.length_append, encodePair_length]
        omega
      have hpos : A.length + (encodeWal (p :: ps)).length
          = (A ++ encodePair p).length + (encodeWal ps).length := by
        simp only [encodeWal_cons, List.length_append]
        omega
      rw [hassoc2, hpos] at hdec
      simp only [walRecoverGo]
      rw [if_pos hlt]
      simp only [hdec0]
      rw [hassoc2, ← List.length_append]
      rw [ih f (A ++ encodePair p) B (acc ++ [p]) e hwf' hfuel' hB hdec]
      simp

/-- C9 counterexample: the error does not identify the offset.  A file
truncated at offset 0 (a lone stray byte) and a file truncated at offset
10 (one full record then a stray byte) surface the exact same error value
`⟨"1.wal", keyLenErr⟩` — the wrapping `fmt.Errorf("failed to read wal %s:
%w", ...)` interpolates only the file name, and the decode error carries
no position. -/
theorem c9_counterexample_no_offset :
    walRecover "1.wal" [5] = ([], some ⟨"1.wal", .keyLenErr⟩)
    ∧ walRecover "1.wal" (encodePair ⟨[97], [98]⟩ ++ [5])
        = ([⟨[97], [98]⟩], some ⟨"1.wal", .keyLenErr⟩) := by
  constructor
  · decide
  · decide

/-- C9 (amended): WAL replay streams every decoded record of the file, in
file order, to the callback until end of file, and a file ending in bytes
that fail to decode aborts replay with a fatal error that identifies the
file name — but not the offset: the error value is the same whatever
position the truncation sits at (see the counterexample). -/
theorem c9_wal_replay_streams_then_fails (name : String) (rs : List KeyValuePair)
    (T : Bytes) (e : WalDecodeErr)
    (hwf : ∀ p ∈ rs, p.key.length ≤ 1048576 ∧ p.value.length ≤ 1073741824)
    (hT : T ≠ [])
    (hdec : decodePairAt (encodeWal rs ++ T) (encodeWal rs).length = .error e) :
    walRecover name (encodeWal rs ++ T) = (rs, some ⟨name, e⟩)
    ∧ walRecover name (encodeWal rs) = (rs, none) := by
  constructor
  · unfold walRecover
    have hdec' : decodePairAt ([] ++ (encodeWal rs ++ T))
        ((([] : Bytes)).length + (encodeWal rs).length) = .error e := by
      simpa using hdec
    have hfuel : rs.length < (encodeWal rs ++ T).length + 1 := by
      have := length_le_encodeWal rs
      simp only [List.length_append]
      omega
    have h := walRecoverGo_error name rs ((encodeWal rs ++ T).length + 1) [] T [] e
      hwf hfuel hT hdec'
    simpa using h
  · unfold walRecover
    have hfuel : rs.length < (encodeWal rs).length + 1 := by
      have := length_le_encodeWal rs
      omega
    have h := walRecoverGo_clean name rs ((encodeWal rs).length + 1) [] [] hwf hfuel
    simpa using h

/-- C9 witness: the amended theorem at one record `(key "a", value "b")`
followed by a stray byte — replay of the truncated file streams the record
then fails with the name-only error, and replay of the clean file streams
the record and ends cleanly. -/
theorem c9_wal_replay_streams_then_fails_witness :
    (∀ p ∈ [(⟨[97], [98]⟩ : KeyValuePair)],
      p.key.length ≤ 1048576 ∧ p.value.length ≤ 1073741824)
    ∧ ([5] : Bytes) ≠ []
    ∧ walRecover "1.wal" (encodeWal [⟨[97], [98]⟩] ++ [5])
        = ([⟨[97], [98]⟩], some ⟨"1.wal", WalDecodeErr.keyLenErr⟩)
    ∧ walRecover "1.wal" (encodeWal [⟨[97], [98]⟩]) = ([⟨[97], [98]⟩], none) :=
  ⟨by decide, by decide,
   (c9_wal_replay_streams_then_fails "1.wal" [⟨[97], [98]⟩] [5] .keyLenErr
      (by decide) (by decide) (by rfl)).1,
   (c9_wal_replay_streams_then_fails "1.wal" [⟨[97], [98]⟩] [5] .keyLenErr
      (by decide) (by decide) (by rfl)).2⟩

/-- Encoded size of a length-prefixed key or value. -/
theorem encodeLP_length (k : Bytes) : (encodeLP k).length = 4 + k.length := by
  simp [encodeLP, u32le]
  omega

/-- `Key.DecodeFrom` on a buffer holding a length-prefixed byte string at
the read position. -/
theorem decodeKeyAt_spec (bs A B k : Bytes) (pos : Nat)
    (hbs : bs = A ++ (encodeLP k ++ B)) (hpos : pos = A.length)
    (hk : k.length < 4294967296) :
    decodeKeyAt bs pos = some (k, pos + 4 + k.length) := by
  have h1 : readBytesAt bs pos 4 = some (u32le k.length) :=
    readBytesAt_at bs A (u32le k.length) (k ++ B) pos 4
      (by rw [hbs]; simp [encodeLP, List.append_assoc]) hpos (u32le_length _).symm
  have h2 : readBytesAt bs (pos + 4) k.length = some k :=
    readBytesAt_at bs (A ++ u32le k.length) k B (pos + 4) k.length
      (by rw [hbs]; simp [encodeLP, List.append_assoc])
      (by simp [hpos, u32le]) rfl
  unfold decodeKeyAt
  simp only [h1, leVal_u32le k.length hk, h2]

/-- `bloom.Filter.DecodeFrom` on a buffer holding the 8-byte length and
the marshalled payload at the read position. -/
theorem decodeFilterAt_spec (bs A B P : Bytes) (pos : Nat)
    (hbs : bs = A ++ ((u64le P.length ++ P) ++ B)) (hpos : pos = A.length)
    (hP : P.length < 18446744073709551616) :
    decodeFilterAt bs pos = some (P, pos + 8 + P.length) := by
  have h1 : readBytesAt bs pos 8 = some (u64le P.length) :=
    readBytesAt_at bs A (u64le P.length) (P ++ B) pos 8
      (by rw [hbs]; simp [List.append_assoc]) hpos (u64le_length _).symm
  have h2 : readBytesAt bs (pos + 8) P.length = some P :=
    readBytesAt_at bs (A ++ u64le P.length) P B (pos + 8) P.length
      (by rw [hbs]; simp [List.append_assoc])
      (by simp [hpos, u64le]) rfl
  unfold decodeFilterAt
  simp only [h1, leVal_u64le P.length hP, h2]

/-- The value section of one more record. -/
theorem lpConcat_cons (v : Bytes) (vs : List Bytes) :
    lpConcat (v :: vs) = encodeLP v ++ lpConcat vs := by
  simp [lpConcat]

/-- Size of the value section of one more record. -/
theorem lpConcat_length_cons (v : Bytes) (vs : List Bytes) :
    (lpConcat (v :: vs)).length = 4 + v.length + (lpConcat vs).length := by
  rw [lpConcat_cons, List.length_append, encodeLP_length]

/-- Each value occupies at least one byte of the value section. -/
theorem length_le_lpConcat (vs : List Bytes) : vs.length ≤ (lpConcat vs).length := by
  induction vs with
  | nil => simp [lpConcat]
  | cons v vs ih =>
    rw [lpConcat_length_cons, List.length_cons]
    omega

/-- Size of the index block of one more record. -/
theorem indexBytesGo_length_cons (p : KeyValuePair) (ps : List KeyValuePair) (off : Nat) :
    (indexBytesGo (p :: ps) off).length
      = 12 + p.key.length + (indexBytesGo ps (off + 4 + p.value.length)).length := by
  simp only [indexBytesGo, List.length_append, encodeLP_length, u64le_length]
  omega

/-- Each record occupies at least one byte of the index block. -/
theorem length_le_indexBytesGo (S : List KeyValuePair) :
    ∀ off, S.length ≤ (indexBytesGo S off).length := by
  induction S with
  | nil => intro off; simp [indexBytesGo]
  | cons p ps ih =>
    intro off
    rw [indexBytesGo_length_cons, List.length_cons]
    have := ih (off + 4 + p.value.length)
    omega

/-- A non-empty table has a non-empty index block. -/
theorem indexBytesGo_pos (S : List KeyValuePair) (off : Nat) (hS : S ≠ []) :
    0 < (indexBytesGo S off).length := by
  cases S with
  | nil => exact absurd rfl hS
  | cons p ps =>
    rw [indexBytesGo_length_cons]
    omega

/-- One index entry per record. -/
theorem indexPairsGo_length (S : List KeyValuePair) :
    ∀ off, (indexPairsGo S off).length = S.length := by
  induction S with
  | nil => intro off; rfl
  | cons p ps ih =>
    intro off
    simp only [indexPairsGo, List.length_cons, ih]

/-- Every recorded offset stays within the value section that starts at
the base offset. -/
theorem indexPairsGo_off_le (S : List KeyValuePair) :
    ∀ off q, q ∈ indexPairsGo S off →
      q.2 ≤ off + (lpConcat (S.map fun p => p.value)).length := by
  induction S with
  | nil => intro off q hq; simp [indexPairsGo] at hq
  | cons p ps ih =>
    intro off q hq
    simp only [indexPairsGo, List.mem_cons] at hq
    have hlc : (lpConcat ((p :: ps).map fun r => r.value)).length
        = 4 + p.value.length + (lpConcat (ps.map fun r => r.value)).length := by
      rw [List.map_cons, lpConcat_length_cons]
    cases hq with
    | inl h =>
      rw [h]
      omega
    | inr h =>
      have := ih (off + 4 + p.value.length) q h
      omega

/-- Zipping the index keys back with the decoded values restores the
records (the load path of `GetKeyValuePairs`). -/
theorem indexPairsGo_zip (S : List KeyValuePair) :
    ∀ off, ((indexPairsGo S off).zip (S.map fun p => p.value)).map
      (fun e => (⟨e.1.1, e.2⟩ : KeyValuePair)) = S := by
  induction S with
  | nil => intro off; rfl
  | cons p ps ih =>
    intro off
    simp only [List.map_cons, indexPairsGo, List.zip_cons_cons]
    rw [ih]

/-- `DecodeFooterFrom` on a file ending in the 32-byte footer: the four
8-byte little-endian fields are read from the last 32 bytes. -/
theorem decodeFooter_spec (Body : Bytes) (a b c d : Nat)
    (ha : a < 18446744073709551616) (hb : b < 18446744073709551616)
    (hc : c < 18446744073709551616) (hd : d < 18446744073709551616) :
    decodeFooter (Body ++ (u64le a ++ (u64le b ++ (u64le c ++ u64le d))))
      = some (a, b, c, d) := by
  have h32 : 32 ≤ (Body ++ (u64le a ++ (u64le b ++ (u64le c ++ u64le d)))).length := by
    simp only [List.length_append, u64le_length]
    omega
  have hbase : (Body ++ (u64le a ++ (u64le b ++ (u64le c ++ u64le d)))).length - 32
      = Body.length := by
    simp only [List.length_append, u64le_length]
    omega
  have h1 : readBytesAt (Body ++ (u64le a ++ (u64le b ++ (u64le c ++ u64le d))))
      Body.length 8 = some (u64le a) :=
    readBytesAt_at _ Body (u64le a) (u64le b ++ (u64le c ++ u64le d)) _ _
      (by simp [List.append_assoc]) rfl (u64le_length _).symm
  have h2 : readBytesAt (Body ++ (u64le a ++ (u64le b ++ (u64le c ++ u64le d))))
      (Body.length + 8) 8 = some (u64le b) :=
    readBytesAt_at _ (Body ++ u64le a) (u64le b) (u64le c ++ u64le d) _ _
      (by simp [List.append_assoc])
      (by simp only [List.length_append, u64le_length]) (u64le_length _).symm
  have h3 : readBytesAt (Body ++ (u64le a ++ (u64le b ++ (u64le c ++ u64le d))))
      (Body.length + 16) 8 = some (u64le c) :=
    readBytesAt_at _ ((Body ++ u64le a) ++ u64le b) (u64le c) (u64le d) _ _
      (by simp [List.append_assoc])
      (by simp only [List.length_append, u64le_length]) (u64le_length _).symm
  have h4 : readBytesAt (Body ++ (u64le a ++ (u64le b ++ (u64le c ++ u64le d))))
      (Body.length + 24) 8 = some (u64le d) :=
    readBytesAt_at _ (((Body ++ u64le a) ++ u64le b) ++ u64le c) (u64le d) [] _ _
      (by simp [List.append_assoc])
      (by simp only [List.length_append, u64le_length]) (u64le_length _).symm
  unfold decodeFooter
  rw [if_pos h32, hbase]
  simp only [h1, h2, h3, h4, leVal_u64le a ha, leVal_u64le b hb, leVal_u64le c hc,
    leVal_u64le d hd]

/-- The `IndexBlock.DecodeFrom` loop on a buffer holding the encoded index
entries at the read position, with a size budget that is exactly the bytes
of those entries: every entry is decoded in order and appended to the
accumulator, and the loop stops when the budget is consumed. -/
theorem decodeIndexGo_spec :
    ∀ (S : List KeyValuePair) (fuel : Nat) (bs A B : Bytes)
      (off pos totalRead size : Nat) (acc : List (Bytes × Nat)),
    bs = A ++ (indexBytesGo S off ++ B) →
    pos = A.length →
    size = totalRead + (indexBytesGo S off).length →
    (∀ p ∈ S, p.key.length < 4294967296) →
    (∀ q ∈ indexPairsGo S off, q.2 < 18446744073709551616) →
    0 < size →
    S.length < fuel →
    decodeIndexGo fuel bs pos totalRead size acc = some (acc ++ indexPairsGo S off) := by
  intro S
  induction S with
  | nil =>
    intro fuel bs A B off pos totalRead size acc hbs hpos hsize hk hoff hszpos hfuel
    cases fuel with
    | zero => omega
    | succ f =>
      have h0 : (indexBytesGo [] off).length = 0 := rfl
      rw [h0] at hsize
      simp only [decodeIndexGo]
      rw [if_pos ⟨hszpos, by omega⟩]
      simp [indexPairsGo]
  | cons p ps ih =>
    intro fuel bs A B off pos totalRead size acc hbs hpos hsize hk hoff hszpos hfuel
    cases fuel with
    | zero => omega
    | succ f =>
      have hp : p.key.length < 4294967296 := hk p (List.mem_cons_self p ps)
      have hk' : ∀ q ∈ ps, q.key.length < 4294967296 :=
        fun q hq => hk q (List.mem_cons_of_mem p hq)
      have hlen : (indexBytesGo (p :: ps) off).length
          = 12 + p.key.length + (indexBytesGo ps (off + 4 + p.value.length)).length :=
        indexBytesGo_length_cons p ps off
      have hc1 : ¬ (0 < size ∧ size ≤ totalRead) := by omega
      have hkey : decodeKeyAt bs pos = some (p.key, pos + 4 + p.key.length) :=
        decodeKeyAt_spec bs A
          (u64le off ++ (indexBytesGo ps (off + 4 + p.value.length) ++ B)) p.key pos
          (by rw [hbs]; simp [indexBytesGo, List.append_assoc]) hpos hp
      have hc2 : ¬ (0 < size ∧ size ≤ totalRead + (pos + 4 + p.key.length - pos)) := by
        omega
      have hob : readBytesAt bs (pos + 4 + p.key.length) 8 = some (u64le off) :=
        readBytesAt_at bs (A ++ encodeLP p.key) (u64le off)
          (indexBytesGo ps (off + 4 + p.value.length) ++ B) _ _
          (by rw [hbs]; simp [indexBytesGo, List.append_assoc])
          (by rw [hpos, List.length_append, encodeLP_length]; omega)
          (u64le_length _).symm
      have hoffp : off < 18446744073709551616 := by
        have := hoff (p.key, off) (by simp [indexPairsGo])
        simpa using this
      simp only [decodeIndexGo]
      rw [if_neg hc1]
      simp only [hkey]
      rw [if_neg hc2]
      simp only [hob, leVal_u64le off hoffp]
      rw [ih f bs (A ++ (encodeLP p.key ++ u64le off)) B (off + 4 + p.value.length)
        (pos + 4 + p.key.length + 8) (totalRead + (pos + 4 + p.key.length - pos) + 8) size
        (acc ++ [(p.key, off)])
        (by rw [hbs]; simp [indexBytesGo, List.append_assoc])
        (by rw [hpos]; simp only [List.length_append, encodeLP_length, u64le_length]; omega)
        (by omega)
        hk'
        (fun q hq => hoff q (List.mem_cons_of_mem _ hq))
        hszpos
        (by simp only [List.length_cons] at hfuel; omega)]
      simp [indexPairsGo]

/-- The `DataBlock.DecodeFrom` loop on a buffer holding the encoded value
section at the read position, with an allowance that is exactly its size:
every value is decoded in order and the loop stops when the allowance is
consumed. -/
theorem decodeDataGo_spec :
    ∀ (V : List Bytes) (fuel : Nat) (bs A B : Bytes) (pos rem : Nat) (acc : List Bytes),
    bs = A ++ (lpConcat V ++ B) →
    pos = A.length →
    rem = (lpConcat V).length →
    (∀ v ∈ V, v.length < 4294967296) →
    V.length < fuel →
    decodeDataGo fuel bs pos rem acc = some (acc ++ V) := by
  intro V
  induction V with
  | nil =>
    intro fuel bs A B pos rem acc hbs hpos hrem hv hfuel
    cases fuel with
    | zero => omega
    | succ f =>
      have h0 : (lpConcat ([] : List Bytes)).length = 0 := rfl
      rw [h0] at hrem
      simp [decodeDataGo, hrem]
  | cons v vs ih =>
    intro fuel bs A B pos rem acc hbs hpos hrem hv hfuel
    cases fuel with
    | zero => omega
    | succ f =>
      have hv0 : v.length < 4294967296 := hv v (List.mem_cons_self v vs)
      have hv' : ∀ w ∈ vs, w.length < 4294967296 :=
        fun w hw => hv w (List.mem_cons_of_mem v hw)
      have hlenc : (lpConcat (v :: vs)).length = 4 + v.length + (lpConcat vs).length :=
        lpConcat_length_cons v vs
      have hbslen : bs.length = A.length + ((lpConcat (v :: vs)).length + B.length) := by
        rw [hbs]
        simp only [List.length_append]
      have havail : min rem (bs.length - pos) = rem := by
        omega
      simp only [decodeDataGo]
      rw [havail]
      rw [if_neg (by omega), if_neg (by omega)]
      have hvl : (bs.drop pos).take 4 = u32le v.length :=
        dropTake_at bs A (u32le v.length) (v ++ (lpConcat vs ++ B)) pos 4
          (by rw [hbs]; simp [lpConcat_cons, encodeLP, List.append_assoc]) hpos
          (u32le_length _).symm
      rw [hvl, leVal_u32le v.length hv0]
      rw [if_neg (by omega)]
      have hvv : (bs.drop (pos + 4)).take v.length = v :=
        dropTake_at bs (A ++ u32le v.length) v (lpConcat vs ++ B) (pos + 4) v.length
          (by rw [hbs]; simp [lpConcat_cons, encodeLP, List.append_assoc])
          (by simp [hpos, u32le]) rfl
      rw [hvv]
      rw [ih f bs (A ++ encodeLP v) B (pos + 4 + v.length) (rem - (4 + v.length))
        (acc ++ [v])
        (by rw [hbs]; simp [lpConcat_cons, List.append_assoc])
        (by rw [hpos]; simp only [List.length_append, encodeLP_length]; omega)
        (by omega)
        hv'
        (by simp only [List.length_cons] at hfuel; omega)]
      simp

/-- The byte layout produced by `EncodeTo`, written as one right-nested
decomposition: header, filter block, value section, index block, footer. -/
theorem encodeSST_layout (minK maxK P : Bytes) (S : List KeyValuePair) :
    encodeSST minK maxK P S
      = (encodeLP minK ++ encodeLP maxK) ++ ((u64le P.length ++ P) ++ (lpConcat (S.map fun p => p.value) ++ (indexBytesGo S ((encodeLP minK ++ encodeLP maxK).length + (u64le P.length ++ P).length) ++ (u64le ((encodeLP minK ++ encodeLP maxK).length + (u64le P.length ++ P).length) ++ (u64le ((lpConcat (S.map fun p => p.value)).length) ++ (u64le ((encodeLP minK ++ encodeLP maxK).length + (u64le P.length ++ P).length + (lpConcat (S.map fun p => p.value)).length) ++ u64le ((indexBytesGo S ((encodeLP minK ++ encodeLP maxK).length + (u64le P.length ++ P).length)).length))))))) := by
  have hVeq : (S.map (fun p => encodeLP p.value)).flatten
      = lpConcat (S.map fun p => p.value) := by
    simp [lpConcat, List.map_map, Function.comp_def]
  simp only [encodeSST]
  rw [hVeq]
  simp [List.append_assoc]

/-- Total size of an encoded SST file, by section. -/
theorem encodeSST_length (minK maxK P : Bytes) (S : List KeyValuePair) :
    (encodeSST minK maxK P S).length
      = (encodeLP minK ++ encodeLP maxK).length + ((u64le P.length ++ P).length + ((lpConcat (S.map fun p => p.value)).length + ((indexBytesGo S ((encodeLP minK ++ encodeLP maxK).length + (u64le P.length ++ P).length)).length + 32))) := by
  rw [encodeSST_layout]
  simp only [List.length_append, u64le_length]

/-- `SSTable.DecodeFrom` on a file written by `EncodeTo`: the header keys,
the filter payload, the data handle and the index entries are all read
back exactly, provided the table is non-empty, the key lengths fit the
32-bit length fields and the file fits 64-bit offsets. -/
theorem decodeSSTMeta_encodeSST (minK maxK P : Bytes) (S : List KeyValuePair)
    (hS : S ≠ [])
    (hmin : minK.length < 4294967296) (hmax : maxK.length < 4294967296)
    (hkeys : ∀ p ∈ S, p.key.length < 4294967296)
    (hlen : (encodeSST minK maxK P S).length < 18446744073709551616) :
    decodeSSTMeta (encodeSST minK maxK P S) = some
      ⟨minK, maxK, P, (encodeLP minK ++ encodeLP maxK).length + (u64le P.length ++ P).length, (lpConcat (S.map fun p => p.value)).length, indexPairsGo S ((encodeLP minK ++ encodeLP maxK).length + (u64le P.length ++ P).length)⟩ := by
  have hlsum := encodeSST_length minK maxK P S
  have hF : (u64le P.length ++ P).length = 8 + P.length := by
    simp only [List.length_append, u64le_length]
  have hP64 : P.length < 18446744073709551616 := by omega
  have hDO : (encodeLP minK ++ encodeLP maxK).length + (u64le P.length ++ P).length < 18446744073709551616 := by omega
  have hb : (lpConcat (S.map fun p => p.value)).length < 18446744073709551616 := by omega
  have hc : (encodeLP minK ++ encodeLP maxK).length + (u64le P.length ++ P).length + (lpConcat (S.map fun p => p.value)).length < 18446744073709551616 := by omega
  have hd : (indexBytesGo S ((encodeLP minK ++ encodeLP maxK).length + (u64le P.length ++ P).length)).length < 18446744073709551616 := by omega
  have h1 : decodeKeyAt (encodeSST minK maxK P S) 0 = some (minK, 0 + 4 + minK.length) :=
    decodeKeyAt_spec _ []
      (encodeLP maxK ++ ((u64le P.length ++ P) ++ (lpConcat (S.map fun p => p.value) ++ (indexBytesGo S ((encodeLP minK ++ encodeLP maxK).length + (u64le P.length ++ P).length) ++ (u64le ((encodeLP minK ++ encodeLP maxK).length + (u64le P.length ++ P).length) ++ (u64le ((lpConcat (S.map fun p => p.value)).length) ++ (u64le ((encodeLP minK ++ encodeLP maxK).length + (u64le P.length ++ P).length + (lpConcat (S.map fun p => p.value)).length) ++ u64le ((indexBytesGo S ((encodeLP minK ++ encodeLP maxK).length + (u64le P.length ++ P).length)).length))))))))
      minK 0
      (by rw [encodeSST_layout]; simp [List.append_assoc]) rfl hmin
  have h2 : decodeKeyAt (encodeSST minK maxK P S) (0 + 4 + minK.length)
      = some (maxK, 0 + 4 + minK.length + 4 + maxK.length) :=
    decodeKeyAt_spec _ (encodeLP minK)
      ((u64le P.length ++ P) ++ (lpConcat (S.map fun p => p.value) ++ (indexBytesGo S ((encodeLP minK ++ encodeLP maxK).length + (u64le P.length ++ P).length) ++ (u64le ((encodeLP minK ++ encodeLP maxK).length + (u64le P.length ++ P).length) ++ (u64le ((lpConcat (S.map fun p => p.value)).length) ++ (u64le ((encodeLP minK ++ encodeLP maxK).length + (u64le P.length ++ P).length + (lpConcat (S.map fun p => p.value)).length) ++ u64le ((indexBytesGo S ((encodeLP minK ++ encodeLP maxK).length + (u64le P.length ++ P).length)).length)))))))
      maxK (0 + 4 + minK.length)
      (by rw [encodeSST_layout]; simp [List.append_assoc])
      (by rw [encodeLP_length]) hmax
  have hhdr : decodeHeaderAt (encodeSST minK maxK P S) 0
      = some ((minK, maxK), 0 + 4 + minK.length + 4 + maxK.length) := by
    unfold decodeHeaderAt
    simp only [h1, h2]
  have hfil : decodeFilterAt (encodeSST minK maxK P S)
      (0 + 4 + minK.length + 4 + maxK.length)
      = some (P, 0 + 4 + minK.length + 4 + maxK.length + 8 + P.length) :=
    decodeFilterAt_spec _ (encodeLP minK ++ encodeLP maxK)
      (lpConcat (S.map fun p => p.value) ++ (indexBytesGo S ((encodeLP minK ++ encodeLP maxK).length + (u64le P.length ++ P).length) ++ (u64le ((encodeLP minK ++ encodeLP maxK).length + (u64le P.length ++ P).length) ++ (u64le ((lpConcat (S.map fun p => p.value)).length) ++ (u64le ((encodeLP minK ++ encodeLP maxK).length + (u64le P.length ++ P).length + (lpConcat (S.map fun p => p.value)).length) ++ u64le ((indexBytesGo S ((encodeLP minK ++ encodeLP maxK).length + (u64le P.length ++ P).length)).length))))))
      P (0 + 4 + minK.length + 4 + maxK.length)
      (by rw [encodeSST_layout])
      (by simp only [List.length_append, encodeLP_length]; omega) hP64
  have hbs2 : encodeSST minK maxK P S
      = ((encodeLP minK ++ encodeLP maxK) ++ ((u64le P.length ++ P) ++ (lpConcat (S.map fun p => p.value) ++ indexBytesGo S ((encodeLP minK ++ encodeLP maxK).length + (u64le P.length ++ P).length)))) ++ (u64le ((encodeLP minK ++ encodeLP maxK).length + (u64le P.length ++ P).length) ++ (u64le ((lpConcat (S.map fun p => p.value)).length) ++ (u64le ((encodeLP minK ++ encodeLP maxK).length + (u64le P.length ++ P).length + (lpConcat (S.map fun p => p.value)).length) ++ u64le ((indexBytesGo S ((encodeLP minK ++ encodeLP maxK).length + (u64le P.length ++ P).length)).length)))) := by
    rw [encodeSST_layout]
    simp [List.append_assoc]
  have hfoot : decodeFooter (encodeSST minK maxK P S)
      = some ((encodeLP minK ++ encodeLP maxK).length + (u64le P.length ++ P).length, (lpConcat (S.map fun p => p.value)).length, (encodeLP minK ++ encodeLP maxK).length + (u64le P.length ++ P).length + (lpConcat (S.map fun p => p.value)).length, (indexBytesGo S ((encodeLP minK ++ encodeLP maxK).length + (u64le P.length ++ P).length)).length) := by
    rw [hbs2]
    exact decodeFooter_spec ((encodeLP minK ++ encodeLP maxK) ++ ((u64le P.length ++ P) ++ (lpConcat (S.map fun p => p.value) ++ indexBytesGo S ((encodeLP minK ++ encodeLP maxK).length + (u64le P.length ++ P).length)))) _ _ _ _ hDO hb hc hd
  have hfuelI : S.length < (encodeSST minK maxK P S).length + 1 := by
    have h1i := length_le_indexBytesGo S ((encodeLP minK ++ encodeLP maxK).length + (u64le P.length ++ P).length)
    omega
  have hI0 : 0 < (indexBytesGo S ((encodeLP minK ++ encodeLP maxK).length + (u64le P.length ++ P).length)).length := indexBytesGo_pos S _ hS
  have hoffs : ∀ q ∈ indexPairsGo S ((encodeLP minK ++ encodeLP maxK).length + (u64le P.length ++ P).length), q.2 < 18446744073709551616 := by
    intro q hq
    have h := indexPairsGo_off_le S ((encodeLP minK ++ encodeLP maxK).length + (u64le P.length ++ P).length) q hq
    omega
  have hidx : decodeIndex (encodeSST minK maxK P S) ((encodeLP minK ++ encodeLP maxK).length + (u64le P.length ++ P).length + (lpConcat (S.map fun p => p.value)).length) ((indexBytesGo S ((encodeLP minK ++ encodeLP maxK).length + (u64le P.length ++ P).length)).length)
      = some (indexPairsGo S ((encodeLP minK ++ encodeLP maxK).length + (u64le P.length ++ P).length)) := by
    unfold decodeIndex
    have h := decodeIndexGo_spec S ((encodeSST minK maxK P S).length + 1)
      (encodeSST minK maxK P S)
      ((encodeLP minK ++ encodeLP maxK) ++ ((u64le P.length ++ P) ++ lpConcat (S.map fun p => p.value)))
      (u64le ((encodeLP minK ++ encodeLP maxK).length + (u64le P.length ++ P).length) ++ (u64le ((lpConcat (S.map fun p => p.value)).length) ++ (u64le ((encodeLP minK ++ encodeLP maxK).length + (u64le P.length ++ P).length + (lpConcat (S.map fun p => p.value)).length) ++ u64le ((indexBytesGo S ((encodeLP minK ++ encodeLP maxK).length + (u64le P.length ++ P).length)).length))))
      ((encodeLP minK ++ encodeLP maxK).length + (u64le P.length ++ P).length) ((encodeLP minK ++ encodeLP maxK).length + (u64le P.length ++ P).length + (lpConcat (S.map fun p => p.value)).length) 0 ((indexBytesGo S ((encodeLP minK ++ encodeLP maxK).length + (u64le P.length ++ P).length)).length) []
      (by rw [encodeSST_layout]; simp [List.append_assoc])
      (by simp only [List.length_append]; omega)
      (by omega)
      hkeys hoffs hI0 hfuelI
    rw [List.nil_append] at h
    exact h
  unfold decodeSSTMeta
  simp only [hhdr, hfil, hfoot, hidx]

/-- `DecodeDataBlock` on a file written by `EncodeTo`, at the data handle
the footer records: the value section decodes back to the written values
in order. -/
theorem decodeData_encodeSST (minK maxK P : Bytes) (S : List KeyValuePair)
    (hvals : ∀ p ∈ S, p.value.length < 4294967296) :
    decodeData (encodeSST minK maxK P S) ((encodeLP minK ++ encodeLP maxK).length + (u64le P.length ++ P).length) ((lpConcat (S.map fun p => p.value)).length)
      = some (S.map fun p => p.value) := by
  unfold decodeData
  have hv : ∀ v ∈ S.map (fun p => p.value), v.length < 4294967296 := by
    intro v hvm
    obtain ⟨p, hp, rfl⟩ := List.mem_map.mp hvm
    exact hvals p hp
  have hfuel : (S.map fun p => p.value).length < (lpConcat (S.map fun p => p.value)).length + 1 := by
    have := length_le_lpConcat (S.map fun p => p.value)
    omega
  have h := decodeDataGo_spec (S.map fun p => p.value) ((lpConcat (S.map fun p => p.value)).length + 1)
    (encodeSST minK maxK P S)
    ((encodeLP minK ++ encodeLP maxK) ++ (u64le P.length ++ P))
    (indexBytesGo S ((encodeLP minK ++ encodeLP maxK).length + (u64le P.length ++ P).length) ++ (u64le ((encodeLP minK ++ encodeLP maxK).length + (u64le P.length ++ P).length) ++ (u64le ((lpConcat (S.map fun p => p.value)).length) ++ (u64le ((encodeLP minK ++ encodeLP maxK).length + (u64le P.length ++ P).length + (lpConcat (S.map fun p => p.value)).length) ++ u64le ((indexBytesGo S ((encodeLP minK ++ encodeLP maxK).length + (u64le P.length ++ P).length)).length)))))
    ((encodeLP minK ++ encodeLP maxK).length + (u64le P.length ++ P).length) ((lpConcat (S.map fun p => p.value)).length) []
    (by rw [encodeSST_layout]; simp [List.append_assoc])
    (by simp only [List.length_append])
    rfl hv hfuel
  rw [List.nil_append] at h
  exact h

/-- C7 counterexample: the round-trip fails for the empty record set.  The
file written for an empty table still carries a 32-byte footer whose index
handle has size 0, and `IndexBlock.DecodeFrom` with a zero size budget
never hits its stop condition: it wanders into the footer bytes and runs
off the end of the file, so `SSTable.DecodeFrom` errors instead of
returning the empty table. -/
theorem c7_counterexample_empty_table :
    decodeSSTMeta (encodeSST [] [] [] []) = none := by decide

/-- C7 (amended): the SST round-trip holds for every non-empty record set
whose key and value lengths fit the 32-bit length fields and whose file
fits 64-bit offsets: reading the file back (metadata decode followed by
the full-scan load of the data section) yields exactly the written
records — same keys, same order, same values.  For the empty record set
the decode fails (see the counterexample), and in this single-data-block
file revision records carry no tombstone mark at all. -/
theorem c7_sst_roundtrip (minK maxK P : Bytes) (S : List KeyValuePair)
    (hS : S ≠ [])
    (hmin : minK.length < 4294967296) (hmax : maxK.length < 4294967296)
    (hkeys : ∀ p ∈ S, p.key.length < 4294967296)
    (hvals : ∀ p ∈ S, p.value.length < 4294967296)
    (hlen : (encodeSST minK maxK P S).length < 18446744073709551616) :
    sstReadBack (encodeSST minK maxK P S) = some S := by
  have hmeta := decodeSSTMeta_encodeSST minK maxK P S hS hmin hmax hkeys hlen
  have hdata := decodeData_encodeSST minK maxK P S hvals
  have hS0 : S.length ≠ 0 := by
    cases S with
    | nil => exact absurd rfl hS
    | cons p ps => simp
  unfold sstReadBack
  simp only [hmeta]
  unfold getDataBlockPairs
  simp only [hdata]
  have hc1 : ¬ ((S.map fun p => p.value).length = 0
      ∨ (indexPairsGo S ((encodeLP minK ++ encodeLP maxK).length
          + (u64le P.length ++ P).length)).length = 0) := by
    simp only [List.length_map, indexPairsGo_length]
    omega
  rw [if_neg hc1]
  have hc2 : ¬ ((S.map fun p => p.value).length
      ≠ (indexPairsGo S ((encodeLP minK ++ encodeLP maxK).length
          + (u64le P.length ++ P).length)).length) := by
    simp only [List.length_map, indexPairsGo_length]
    omega
  rw [if_neg hc2]
  rw [indexPairsGo_zip S ((encodeLP minK ++ encodeLP maxK).length
    + (u64le P.length ++ P).length)]

/-- C7 witness: the amended theorem at the one-record table
`{"k" ↦ "v"}` with filter payload `[7]` — the encoded file reads back to
exactly that record. -/
theorem c7_sst_roundtrip_witness :
    ([(⟨[107], [118]⟩ : KeyValuePair)] ≠ [])
    ∧ sstReadBack (encodeSST [107] [107] [7] [⟨[107], [118]⟩])
        = some [⟨[107], [118]⟩] :=
  ⟨by decide,
   c7_sst_roundtrip [107] [107] [7] [⟨[107], [118]⟩] (by decide) (by decide)
     (by decide) (by decide) (by decide) (by decide)⟩
